import Mathlib

/-!
# PruferCode: decoding a Prüfer sequence into the edge list of a labelled tree

Shallow embedding of `prufer_code.c` (the queue functions and `make_tree`) together with
the properties of the decoder.

Conventions of the embedding.

* `u_int32_t` values are natural numbers; the two additions `length + 2` and `length + 1`
  that the C code performs in 32 bits are reduced modulo `2 ^ 32`.
* A C array is a list of cells; a cell is `none` until it is written (the `malloc`ed rows of
  `father_code` and the variable-length arrays `V`, `V_enabled`, `V_consumed` start with
  indeterminate contents).  Every read and write is checked: an index outside the block is
  the fault `out_of_bounds`, a read of a cell never written is `uninitialised`.
* The linked queue `queue_t **` is the list of the `data` fields from head to tail.  A node
  stores the `u_int32_t` it was given (cast to `void *` and back), `NULL` is `0`.
* `exit(EXIT_FAILURE)` is the fault `exit_failure`.  Allocation is taken to succeed.
* The `while` loop of `make_tree` is run with a fuel equal to the number of queued nodes;
  running out of it is the fault `out_of_fuel`.
* Loop counters (`int i`, `size_t col_index`) are natural numbers.  The properties are
  stated for sequences of length `m` with `m + 2 < 2 ^ 32`, the lengths for which the 32-bit
  `vertex_number = length + 2` is the number of vertices.
-/

namespace PruferCode

/-! ## Machine model -/

/-- Ways in which a run can end without a value. -/
inductive Fault where
  | exit_failure
  | out_of_bounds
  | uninitialised
  | out_of_fuel
  deriving DecidableEq, Repr

/-- A computation that either faults or returns a value. -/
abbrev Run (α : Type) : Type := Except Fault α

/-- Modulus of `u_int32_t` arithmetic. -/
def U32_MOD : Nat := 2 ^ 32

/-- The constant `FATHER_CODE_ROWS` of the source. -/
def FATHER_CODE_ROWS : Nat := 2

/-- The null pointer, as the value a `void *` is compared with. -/
def NULL : Nat := 0

/-- A block of `n` cells with indeterminate contents. -/
def alloc (α : Type) (n : Nat) : List (Option α) := List.replicate n none

/-- Read `a[i]` of a block. -/
def rd {α : Type} (a : List (Option α)) (i : Nat) : Run α :=
  match a[i]? with
  | none => .error .out_of_bounds
  | some none => .error .uninitialised
  | some (some x) => .ok x

/-- Write `a[i] = x` of a block. -/
def wr {α : Type} (a : List (Option α)) (i : Nat) (x : α) : Run (List (Option α)) :=
  if i < a.length then .ok (a.set i (some x)) else .error .out_of_bounds

/-- Read `array[i]` of an input array, all of whose cells hold a value. -/
def rd_in (array : List Nat) (i : Nat) : Run Nat :=
  match array[i]? with
  | none => .error .out_of_bounds
  | some x => .ok x

/-- Write `m[r][c] = x` of a matrix held as a list of rows. -/
def wr2 (m : List (List (Option Nat))) (r c x : Nat) : Run (List (List (Option Nat))) :=
  match m[r]? with
  | none => .error .out_of_bounds
  | some row => (wr row c x).map (fun row' => m.set r row')

/-- The loop `for (int i = 0; i < n; i++) body`, threading the variables it changes. -/
def for_loop {σ : Type} (n : Nat) (body : Nat → σ → Run σ) (init : σ) : Run σ :=
  (List.range n).foldlM (fun st i => body i st) init

/-! ## The queue (lines 46-164) -/

/-- Source `create_queue`: the empty queue. -/
def create_queue : List Nat := []

/-- Source `enqueue`: walk to the last node and link the new node after it. -/
def enqueue : List Nat → Nat → List Nat
  | [], data => [data]
  | c :: next, data => c :: enqueue next data

/-- Source `dequeue`: the data of the head node and the queue without it; `NULL` and the
queue unchanged when the queue is empty. -/
def dequeue : List Nat → Nat × List Nat
  | [] => (NULL, [])
  | data :: next => (data, next)

/-- Source `element_in_queue`: walk the nodes, `true` at the first node holding `element`. -/
def element_in_queue (element : Nat) : List Nat → Bool
  | [] => false
  | cur_data :: next => if cur_data = element then true else element_in_queue element next

/-- Body of the loop of `element_in_array`, over the indices still to visit. -/
def element_in_array_from (element : Nat) (array : List Nat) : List Nat → Run Bool
  | [] => .ok false
  | i :: rest => do
      let x ← rd_in array i
      if x = element then .ok true else element_in_array_from element array rest

/-- Source `element_in_array`: `true` at the first index below `len` holding `element`. -/
def element_in_array (element : Nat) (array : List Nat) (len : Nat) : Run Bool :=
  element_in_array_from element array (List.range len)

/-! ## make_tree (lines 199-300) -/

/-- Source `tree_t`; `father_code` is the matrix of `FATHER_CODE_ROWS` rows, row 0 the
children and row 1 the fathers. -/
structure tree_t where
  edge_number : Nat
  vertex_number : Nat
  father_code : List (List (Option Nat))
  deriving DecidableEq, Repr

/-- The variables of `make_tree` that the decoding loop reads and writes. -/
structure Locals where
  pr_code : List Nat
  V : List (Option Nat)
  V_enabled : List (Option Bool)
  V_consumed : List (Option Bool)
  father_code_matrix : List (List (Option Nat))
  col_index : Nat
  deriving DecidableEq, Repr

/-- Lines 222-224: the elements of the sequence are enqueued in order of position. -/
def load_queue (prufer_code : List Nat) (length : Nat) : Run (List Nat) :=
  for_loop length (fun i q => do
    let x ← rd_in prufer_code i
    .ok (enqueue q x)) create_queue

/-- Lines 232-235: `V[i] = i`, `V_consumed[i] = false`. -/
def fill_vertices (len : Nat) :
    Run (List (Option Nat) × List (Option Bool)) :=
  for_loop len (fun i (p : List (Option Nat) × List (Option Bool)) => do
    let V ← wr p.1 i i
    let V_consumed ← wr p.2 i false
    .ok (V, V_consumed)) (alloc Nat len, alloc Bool len)

/-- Lines 237-243: a vertex is enabled when it does not occur in the sequence. -/
def fill_enabled (prufer_code : List Nat) (length len : Nat) (V : List (Option Nat)) :
    Run (List (Option Bool)) :=
  for_loop len (fun i V_enabled => do
    let v ← rd V i
    let found ← element_in_array v prufer_code length
    if found = true then wr V_enabled i false else wr V_enabled i true) (alloc Bool len)

/-- Lines 200-245: everything before the decoding loop. -/
def init_locals (prufer_code : List Nat) (length : Nat) : Run Locals := do
  let vertex_number := (length + 2) % U32_MOD
  let edge_number := (length + 1) % U32_MOD
  let rows := FATHER_CODE_ROWS
  let cols := edge_number
  let father_code_matrix := List.replicate rows (alloc Nat cols)
  let pr_code ← load_queue prufer_code length
  let len := vertex_number
  let (V, V_consumed) ← fill_vertices len
  let V_enabled ← fill_enabled prufer_code length len V
  .ok { pr_code := pr_code, V := V, V_enabled := V_enabled, V_consumed := V_consumed,
        father_code_matrix := father_code_matrix, col_index := 0 }

/-- Lines 251-257: scan the indices in order; at the first one that is enabled and not
consumed, take `V[i]` as child, set `V_consumed[i]` and jump to `exit_here` (result `some`).
The result `none` is the loop running to its end. -/
def select_child (V : List (Option Nat)) (V_enabled V_consumed : List (Option Bool)) :
    List Nat → Run (Option (Nat × List (Option Bool)))
  | [] => .ok none
  | i :: rest => do
      let e ← rd V_enabled i
      let hit ← if e = true then (do let c ← rd V_consumed i; .ok (c == false)) else .ok false
      if hit = true then do
        let child ← rd V i
        let V_consumed' ← wr V_consumed i true
        .ok (some (child, V_consumed'))
      else select_child V V_enabled V_consumed rest

/-- Lines 263-267: enable every vertex that no node still in the queue holds. -/
def refresh_enabled (len : Nat) (V : List (Option Nat)) (pr_code : List Nat)
    (V_enabled : List (Option Bool)) : Run (List (Option Bool)) :=
  for_loop len (fun i V_enabled => do
    let v ← rd V i
    if element_in_queue v pr_code = false then wr V_enabled i true else .ok V_enabled) V_enabled

/-- Lines 248-272: one iteration of the decoding loop. -/
def step (len : Nat) (st : Locals) : Run Locals := do
  let (father, pr_code) := dequeue st.pr_code
  match ← select_child st.V st.V_enabled st.V_consumed (List.range len) with
  | none => .error .exit_failure
  | some (child, V_consumed) =>
    let V_enabled ← refresh_enabled len st.V pr_code st.V_enabled
    let m0 ← wr2 st.father_code_matrix 0 st.col_index child
    let m1 ← wr2 m0 1 st.col_index father
    .ok { pr_code := pr_code, V := st.V, V_enabled := V_enabled, V_consumed := V_consumed,
          father_code_matrix := m1, col_index := st.col_index + 1 }

/-- Lines 247-273: `while (*pr_code != NULL)`. -/
def while_loop (len : Nat) : Nat → Locals → Run Locals
  | fuel, st =>
    match st.pr_code, fuel with
    | [], _ => .ok st
    | _ :: _, 0 => .error .out_of_fuel
    | _ :: _, fuel + 1 => do
        let st' ← step len st
        while_loop len fuel st'

/-- Lines 277-297: the first vertex not consumed goes to row 0, the second to row 1 of
column `col_index`; further ones only advance the counter. -/
def last_pair (len : Nat) (st : Locals) : Run (List (List (Option Nat)) × Nat) :=
  for_loop len (fun i (p : List (List (Option Nat)) × Nat) => do
    let c ← rd st.V_consumed i
    if c = false then do
      let m ← match p.2 with
        | 0 => do
            let v ← rd st.V i
            wr2 p.1 0 st.col_index v
        | 1 => do
            let v ← rd st.V i
            wr2 p.1 1 st.col_index v
        | _ => .ok p.1
      .ok (m, p.2 + 1)
    else .ok p) (st.father_code_matrix, 0)

/-- Source `make_tree`. -/
def make_tree (prufer_code : List Nat) (length : Nat) : Run tree_t := do
  let st0 ← init_locals prufer_code length
  let len := (length + 2) % U32_MOD
  let st ← while_loop len st0.pr_code.length st0
  let (father_code_matrix, _) ← last_pair len st
  .ok { edge_number := (length + 1) % U32_MOD, vertex_number := (length + 2) % U32_MOD,
        father_code := father_code_matrix }

/-! ## Reading the result -/

/-- The cells of row `r` of the matrix. -/
def father_code_row (t : tree_t) (r : Nat) : List (Option Nat) :=
  t.father_code.getD r []

/-- The edge list of a returned tree: the columns of `father_code` of which both cells are
written, as `(child, father)` pairs in column order. -/
def edges (t : tree_t) : List (Nat × Nat) :=
  (List.zip (father_code_row t 0) (father_code_row t 1)).filterMap
    (fun p => match p with
      | (some c, some f) => some (c, f)
      | _ => none)

/-- The cell `m[r][j]` of a matrix; `none` when the cell was never written. -/
def cell (m : List (List (Option Nat))) (r j : Nat) : Option Nat :=
  (m.getD r []).getD j none

/-! ## Notions the properties are stated with -/

/-- The range precondition of the decoder: every element of a sequence of length `m` is a
vertex of the universe `{0, ..., m + 1}`. -/
def valid_sequence (s : List Nat) : Prop := ∀ x ∈ s, x < s.length + 2

instance valid_sequence_decidable (s : List Nat) : Decidable (valid_sequence s) :=
  inferInstanceAs (Decidable (∀ x ∈ s, x < s.length + 2))

/-- The number of edges that have `v` as an endpoint. -/
def degree (es : List (Nat × Nat)) (v : Nat) : Nat :=
  es.countP (fun e => decide (e.1 = v) || decide (e.2 = v))

/-- The edge list read as an undirected graph on the vertices `{0, ..., n - 1}`: two
distinct vertices are adjacent when some edge joins them, in either order. -/
def tree_graph (n : Nat) (es : List (Nat × Nat)) : SimpleGraph (Fin n) :=
  SimpleGraph.fromRel (fun u v => (u.val, v.val) ∈ es)

/-- The loop of the standard Prüfer encoding: `k` times, take the smallest vertex of `vs`
that is a leaf of the remaining edges `es`, record its neighbour, and remove the leaf and
its edge. -/
def prufer_encode_loop : Nat → List Nat → List (Nat × Nat) → Option (List Nat)
  | 0, _, _ => some []
  | k + 1, vs, es =>
    match vs.find? (fun v => degree es v == 1) with
    | none => none
    | some leaf =>
      match es.find? (fun e => decide (e.1 = leaf) || decide (e.2 = leaf)) with
      | none => none
      | some e =>
        (prufer_encode_loop k (vs.erase leaf) (es.erase e)).map
          (fun code => (if e.1 = leaf then e.2 else e.1) :: code)

/-- The standard Prüfer encoding of a tree on the vertices `{0, ..., n - 1}`: remove the
smallest-labelled leaf and record its neighbour, until two vertices remain. -/
def prufer_encode (n : Nat) (es : List (Nat × Nat)) : Option (List Nat) :=
  prufer_encode_loop (n - 2) (List.range n) es

/-- The decoding loop cut off after `k` iterations: the variables at the head of
iteration `k` (counting from 0). -/
def run_steps (len : Nat) : Nat → Locals → Run Locals
  | 0, st => .ok st
  | k + 1, st => do
      let st' ← step len st
      run_steps len k st'

/-- Vertex `i` is enabled and not consumed: the test of the scan at lines 251-257. -/
def is_eligible (st : Locals) (i : Nat) : Bool :=
  decide (st.V_enabled[i]? = some (some true)) && decide (st.V_consumed[i]? = some (some false))

/-- Vertex `i` has `V_consumed[i] == false`: the test of the final scan at line 279. -/
def not_consumed (st : Locals) (i : Nat) : Bool :=
  decide (st.V_consumed[i]? = some (some false))

/-- Enqueue the values of `xs` one after the other, first to last. -/
def enqueue_all (q : List Nat) (xs : List Nat) : List Nat :=
  xs.foldl enqueue q

/-- Call `dequeue` `k` times; the values returned, in order, and the queue left. -/
def dequeue_many : Nat → List Nat → List Nat × List Nat
  | 0, q => ([], q)
  | k + 1, q =>
    let r := dequeue q
    let rest := dequeue_many k r.2
    (r.1 :: rest.1, rest.2)

/-! ## Data the proofs are organised around -/

/-- The block of `n` cells whose cell `i` is `g i`. -/
def tab {α : Type} (n : Nat) (g : Nat → Option α) : List (Option α) := (List.range n).map g

/-- The variables of `make_tree` at the head of the decoding loop, when `q` is still queued,
`used` are the children chosen so far and `done` the fathers written so far. -/
def locals_at (n cols : Nat) (q used done : List Nat) : Locals :=
  { pr_code := q
    V := tab n (fun i => some i)
    V_enabled := tab n (fun v => some (decide (v ∉ q)))
    V_consumed := tab n (fun v => some (decide (v ∈ used)))
    father_code_matrix := [tab cols (fun j => used[j]?), tab cols (fun j => done[j]?)]
    col_index := used.length }

/-- The smallest vertex below `n` that is neither queued nor used. -/
def smallest_free (n : Nat) (q used : List Nat) : Option Nat :=
  (List.range n).find? (fun v => decide (v ∉ q) && !decide (v ∈ used))

/-- The children the decoding loop chooses for the queue `q` when `used` are consumed. -/
def children (n : Nat) : List Nat → List Nat → List Nat
  | [], _ => []
  | f :: q, used =>
    match smallest_free n (f :: q) used with
    | none => []
    | some c => c :: children n q (used ++ [c])

/-- The vertices below `n` that are not in `cs`, in increasing order. -/
def unconsumed (n : Nat) (cs : List Nat) : List Nat :=
  (List.range n).filter (fun v => decide (v ∉ cs))

/-- The lists `cs` (children of the loop) and the pair `a`, `b` (the final edge) that belong
to the sequence `s`: every child is the smallest vertex that is neither in the rest of the
sequence nor an earlier child, and `a`, `b` are the vertices left over, in increasing order. -/
structure Decoded (s cs : List Nat) (a b : Nat) : Prop where
  length_eq : cs.length = s.length
  free : ∀ k, k < s.length → smallest_free (s.length + 2) (s.drop k) (cs.take k) = cs[k]?
  rest : unconsumed (s.length + 2) cs = [a, b]

/-! ## Auxiliary facts about blocks and loops -/

@[simp]
theorem ok_bind {α β : Type} (x : α) (f : α → Run β) :
    (Except.ok x >>= f) = f x := rfl

@[simp]
theorem error_bind {α β : Type} (e : Fault) (f : α → Run β) :
    ((Except.error e : Run α) >>= f) = Except.error e := rfl

@[simp]
theorem pure_eq_ok {α : Type} (x : α) : (pure x : Run α) = Except.ok x := rfl

theorem tab_length {α : Type} (n : Nat) (g : Nat → Option α) : (tab n g).length = n := by
  simp [tab]

theorem tab_getElem? {α : Type} (n : Nat) (g : Nat → Option α) (i : Nat) :
    (tab n g)[i]? = if i < n then some (g i) else none := by
  unfold tab
  by_cases h : i < n
  · simp [h, List.getElem?_range h]
  · simp [h, List.getElem?_eq_none (l := List.range n) (by simpa using h)]

theorem tab_congr {α : Type} (n : Nat) (g g' : Nat → Option α) (h : ∀ i, i < n → g i = g' i) :
    tab n g = tab n g' := by
  unfold tab
  apply List.map_congr_left
  intro i hi
  exact h i (List.mem_range.mp hi)

theorem alloc_eq_tab (α : Type) (n : Nat) : alloc α n = tab n (fun _ => none) := by
  unfold alloc tab
  apply List.ext_getElem?
  intro i
  by_cases h : i < n
  · simp [h, List.getElem?_range h, List.getElem?_replicate]
  · simp [h, List.getElem?_replicate]

theorem rd_tab {α : Type} (n : Nat) (g : Nat → Option α) (i : Nat) (x : α) (hi : i < n)
    (hx : g i = some x) : rd (tab n g) i = .ok x := by
  simp [rd, tab_getElem?, hi, hx]

theorem wr_tab {α : Type} (n : Nat) (g : Nat → Option α) (i : Nat) (x : α) (hi : i < n) :
    wr (tab n g) i x = .ok (tab n (fun j => if j = i then some x else g j)) := by
  unfold wr
  rw [if_pos (by simpa [tab_length] using hi)]
  congr 1
  apply List.ext_getElem?
  intro j
  rw [List.getElem?_set, tab_getElem?, tab_getElem?, tab_length]
  by_cases hj : i = j
  · subst hj; simp [hi]
  · have hj' : ¬ j = i := fun h => hj h.symm
    simp [hj, hj']

theorem for_loop_zero {σ : Type} (body : Nat → σ → Run σ) (st : σ) :
    for_loop 0 body st = .ok st := by
  simp [for_loop]

theorem for_loop_succ {σ : Type} (n : Nat) (body : Nat → σ → Run σ) (st : σ) :
    for_loop (n + 1) body st = for_loop n body st >>= body n := by
  simp only [for_loop, List.range_succ, List.foldlM_append, List.foldlM_cons, List.foldlM_nil,
    bind_pure]

/-- Loop invariant rule for `for_loop`. -/
theorem for_loop_inv {σ : Type} (n : Nat) (body : Nat → σ → Run σ) (P : Nat → σ → Prop)
    (st : σ) (h0 : P 0 st)
    (hstep : ∀ i st, i < n → P i st → ∃ st', body i st = .ok st' ∧ P (i + 1) st') :
    ∃ st', for_loop n body st = .ok st' ∧ P n st' := by
  suffices H : ∀ k, k ≤ n → ∃ st', for_loop k body st = .ok st' ∧ P k st' from H n le_rfl
  intro k
  induction k with
  | zero => intro _; exact ⟨st, for_loop_zero body st, h0⟩
  | succ k ih =>
    intro hk
    obtain ⟨st1, h1, hP1⟩ := ih (by omega)
    obtain ⟨st2, h2, hP2⟩ := hstep k st1 (by omega) hP1
    refine ⟨st2, ?_, hP2⟩
    rw [for_loop_succ, h1]
    exact h2

theorem enqueue_eq_append (q : List Nat) (x : Nat) : enqueue q x = q ++ [x] := by
  induction q with
  | nil => rfl
  | cons c next ih => simp [enqueue, ih]

theorem element_in_queue_eq (element : Nat) (q : List Nat) :
    element_in_queue element q = decide (element ∈ q) := by
  induction q with
  | nil => simp [element_in_queue]
  | cons c next ih =>
    by_cases h : c = element
    · simp [element_in_queue, h]
    · have h' : ¬ element = c := fun e => h e.symm
      simp [element_in_queue, h, h', ih]

theorem tab_advance {α : Type} (n i : Nat) (g0 g1 : Nat → Option α) (x : α)
    (hx : g1 i = some x) :
    tab n (fun j => if j = i then some x else (if j < i then g1 j else g0 j))
      = tab n (fun j => if j < i + 1 then g1 j else g0 j) := by
  apply tab_congr
  intro j _
  by_cases h1 : j = i
  · subst h1; simp [hx]
  · by_cases h2 : j < i
    · have : j < i + 1 := by omega
      simp [h1, h2, this]
    · have : ¬ j < i + 1 := by omega
      simp [h1, h2, this]

theorem tab_before_zero {α : Type} (n : Nat) (g0 g1 : Nat → Option α) :
    tab n (fun j => if j < 0 then g1 j else g0 j) = tab n g0 := by
  apply tab_congr; intro j _; simp

theorem tab_before_all {α : Type} (n : Nat) (g0 g1 : Nat → Option α) :
    tab n (fun j => if j < n then g1 j else g0 j) = tab n g1 := by
  apply tab_congr; intro j hj; simp [hj]

theorem element_in_array_from_eq (element : Nat) (array : List Nat) (l : List Nat)
    (hl : ∀ i ∈ l, i < array.length) :
    element_in_array_from element array l
      = .ok (decide (∃ i ∈ l, array[i]? = some element)) := by
  induction l with
  | nil => simp [element_in_array_from]
  | cons i rest ih =>
    have hi : i < array.length := hl i (List.mem_cons_self _ _)
    have hrest : ∀ j ∈ rest, j < array.length := fun j hj => hl j (List.mem_cons_of_mem _ hj)
    have hget : array[i]? = some array[i] := List.getElem?_eq_getElem hi
    unfold element_in_array_from
    simp only [rd_in, hget]
    by_cases hx : array[i] = element
    · simp [hx, hget]
    · rw [ih hrest]
      simp [hx, hget]

theorem element_in_array_eq (element : Nat) (array : List Nat) :
    element_in_array element array array.length = .ok (decide (element ∈ array)) := by
  unfold element_in_array
  rw [element_in_array_from_eq element array _ (fun i hi => List.mem_range.mp hi)]
  congr 1
  apply decide_eq_decide.mpr
  constructor
  · rintro ⟨i, _, hi⟩
    exact List.getElem?_mem hi
  · intro h
    obtain ⟨i, hi, hx⟩ := List.getElem_of_mem h
    exact ⟨i, List.mem_range.mpr hi, by rw [List.getElem?_eq_getElem hi, hx]⟩

theorem load_queue_eq (s : List Nat) : load_queue s s.length = .ok s := by
  obtain ⟨q, hq, hP⟩ := for_loop_inv s.length
    (fun i q => do
      let x ← rd_in s i
      .ok (enqueue q x))
    (fun i q => q = s.take i) create_queue (by simp [create_queue])
    (by
      intro i q hi hP
      subst hP
      refine ⟨s.take (i + 1), ?_, rfl⟩
      simp only [rd_in, List.getElem?_eq_getElem hi, enqueue_eq_append, List.take_succ,
        ok_bind, Option.toList])
  unfold load_queue
  rw [hq, hP, List.take_length]

theorem fill_vertices_eq (n : Nat) :
    fill_vertices n = .ok (tab n (fun i => some i), tab n (fun _ => some false)) := by
  obtain ⟨p, hp, hP⟩ := for_loop_inv n
    (fun i (p : List (Option Nat) × List (Option Bool)) => do
      let V ← wr p.1 i i
      let V_consumed ← wr p.2 i false
      .ok (V, V_consumed))
    (fun i p => p = (tab n (fun j => if j < i then some j else none),
                     tab n (fun j => if j < i then some false else none)))
    (alloc Nat n, alloc Bool n)
    (by simp [alloc_eq_tab])
    (by
      intro i p hi hP
      subst hP
      refine ⟨_, ?_, rfl⟩
      simp only [wr_tab _ _ _ _ hi]
      rw [tab_advance n i (fun _ => none) (fun j => some j) i rfl,
        tab_advance n i (fun _ => none) (fun _ => some false) false rfl]
      rfl)
  unfold fill_vertices
  rw [hp, hP, tab_before_all, tab_before_all]

theorem fill_enabled_eq (s : List Nat) (n : Nat) :
    fill_enabled s s.length n (tab n (fun i => some i))
      = .ok (tab n (fun v => some (decide (v ∉ s)))) := by
  obtain ⟨p, hp, hP⟩ := for_loop_inv n
    (fun i V_enabled => do
      let v ← rd (tab n (fun i => some i)) i
      let found ← element_in_array v s s.length
      if found = true then wr V_enabled i false else wr V_enabled i true)
    (fun i p => p = tab n (fun j => if j < i then some (decide (j ∉ s)) else none))
    (alloc Bool n)
    (by simp [alloc_eq_tab])
    (by
      intro i p hi hP
      subst hP
      refine ⟨_, ?_, rfl⟩
      simp only [rd_tab n _ i i hi rfl, element_in_array_eq, ok_bind]
      by_cases hmem : i ∈ s
      · simp only [hmem, decide_True]
        rw [← tab_advance n i (fun _ => none) (fun j => some (decide (j ∉ s))) false
          (by simp [hmem])]
        simp [wr_tab _ _ _ _ hi]
      · simp only [hmem, decide_False]
        rw [← tab_advance n i (fun _ => none) (fun j => some (decide (j ∉ s))) true
          (by simp [hmem])]
        simp [wr_tab _ _ _ _ hi])
  unfold fill_enabled
  rw [hp, hP, tab_before_all]

theorem init_locals_eq (s : List Nat) (h : s.length + 2 < U32_MOD) :
    init_locals s s.length = .ok (locals_at (s.length + 2) (s.length + 1) s [] []) := by
  have h2 : (s.length + 2) % U32_MOD = s.length + 2 := Nat.mod_eq_of_lt h
  have h1 : (s.length + 1) % U32_MOD = s.length + 1 := Nat.mod_eq_of_lt (by omega)
  unfold init_locals
  simp only [h1, h2, load_queue_eq, fill_vertices_eq, fill_enabled_eq, ok_bind, locals_at,
    FATHER_CODE_ROWS, alloc_eq_tab]
  simp [List.replicate]

theorem select_child_eq (n : Nat) (e c : Nat → Bool) (l : List Nat) (hl : ∀ i ∈ l, i < n) :
    select_child (tab n (fun i => some i)) (tab n (fun i => some (e i)))
        (tab n (fun i => some (c i))) l
      = .ok ((l.find? (fun i => e i && !c i)).map
          (fun i => (i, tab n (fun j => if j = i then some true else some (c j))))) := by
  induction l with
  | nil => simp [select_child]
  | cons i rest ih =>
    have hi : i < n := hl i (List.mem_cons_self _ _)
    have hrest : ∀ j ∈ rest, j < n := fun j hj => hl j (List.mem_cons_of_mem _ hj)
    have hre : rd (tab n (fun i => some (e i))) i = .ok (e i) := rd_tab n _ i _ hi rfl
    have hrc : rd (tab n (fun i => some (c i))) i = .ok (c i) := rd_tab n _ i _ hi rfl
    have hrv : rd (tab n (fun i => some i)) i = .ok i := rd_tab n _ i _ hi rfl
    unfold select_child
    simp only [hre, hrc, hrv, ok_bind]
    cases he : e i <;> cases hc : c i <;>
      simp [he, hc, ih hrest, List.find?_cons, wr_tab _ _ _ _ hi]

theorem refresh_enabled_eq (n : Nat) (f : Nat) (q : List Nat) :
    refresh_enabled n (tab n (fun i => some i)) q (tab n (fun v => some (decide (v ∉ f :: q))))
      = .ok (tab n (fun v => some (decide (v ∉ q)))) := by
  obtain ⟨p, hp, hP⟩ := for_loop_inv n
    (fun i V_enabled => do
      let v ← rd (tab n (fun i => some i)) i
      if element_in_queue v q = false then wr V_enabled i true else .ok V_enabled)
    (fun i p => p = tab n (fun j => if j < i then some (decide (j ∉ q))
                                     else some (decide (j ∉ f :: q))))
    (tab n (fun v => some (decide (v ∉ f :: q))))
    (by show _ = _; rw [tab_before_zero])
    (by
      intro i p hi hP
      subst hP
      refine ⟨_, ?_, rfl⟩
      simp only [rd_tab n _ i i hi rfl, element_in_queue_eq, ok_bind]
      by_cases hmem : i ∈ q
      · simp only [hmem, decide_True, Bool.true_eq_false, if_false]
        congr 1
        apply tab_congr
        intro j _
        by_cases h1 : j < i
        · have : j < i + 1 := by omega
          simp [h1, this]
        · by_cases h2 : j = i
          · subst h2; simp [hmem]
          · have : ¬ j < i + 1 := by omega
            simp [h1, this]
      · simp only [hmem, decide_False, if_true]
        rw [← tab_advance n i (fun j => some (decide (j ∉ f :: q)))
          (fun j => some (decide (j ∉ q))) true (by simp [hmem])]
        simp [wr_tab _ _ _ _ hi])
  unfold refresh_enabled
  rw [hp, hP, tab_before_all]

theorem wr2_row0 (r0 r1 : List (Option Nat)) (c x : Nat) (hc : c < r0.length) :
    wr2 [r0, r1] 0 c x = .ok [r0.set c (some x), r1] := by
  simp [wr2, wr, hc, Except.map]

theorem wr2_row1 (r0 r1 : List (Option Nat)) (c x : Nat) (hc : c < r1.length) :
    wr2 [r0, r1] 1 c x = .ok [r0, r1.set c (some x)] := by
  simp [wr2, wr, hc, Except.map]

theorem tab_set_snoc (cols : Nat) (l : List Nat) (x : Nat) :
    (tab cols (fun j => l[j]?)).set l.length (some x) = tab cols (fun j => (l ++ [x])[j]?) := by
  apply List.ext_getElem?
  intro j
  rw [List.getElem?_set, tab_getElem?, tab_getElem?, tab_length]
  by_cases h1 : l.length = j
  · subst h1
    by_cases h2 : l.length < cols <;> simp [h2]
  · by_cases h2 : j < cols
    · simp only [h1, h2, if_true, if_false]
      rcases Nat.lt_or_gt_of_ne h1 with h3 | h3
      · rw [List.getElem?_eq_none (by omega), List.getElem?_eq_none (by simp; omega)]
      · rw [List.getElem?_append_left h3]
    · simp [h1, h2]

theorem step_eq (n cols f : Nat) (q used done : List Nat) (c : Nat)
    (hc : smallest_free n (f :: q) used = some c) (hlen : done.length = used.length)
    (hcol : used.length < cols) :
    step n (locals_at n cols (f :: q) used done)
      = .ok (locals_at n cols q (used ++ [c]) (done ++ [f])) := by
  unfold smallest_free at hc
  have hsel := select_child_eq n (fun v => decide (v ∉ f :: q)) (fun v => decide (v ∈ used))
    (List.range n) (fun i hi => List.mem_range.mp hi)
  rw [hc] at hsel
  unfold step
  simp only [locals_at, dequeue, hsel, ok_bind, Option.map, refresh_enabled_eq]
  rw [wr2_row0 _ _ _ _ (by simpa [tab_length] using hcol)]
  simp only [ok_bind]
  rw [wr2_row1 _ _ _ _ (by simpa [tab_length] using hcol)]
  simp only [ok_bind]
  rw [tab_set_snoc, ← hlen, tab_set_snoc]
  congr 2
  · apply tab_congr
    intro j _
    by_cases h : j = c <;> simp [h]
  · simp [hlen]

theorem exists_free (n : Nat) (l : List Nat) (h : l.length < n) :
    ∃ v, v < n ∧ v ∉ l := by
  by_contra hno
  have hsub : Finset.range n ⊆ l.toFinset := by
    intro v hv
    by_contra hvl
    exact hno ⟨v, Finset.mem_range.mp hv, fun hm => hvl (List.mem_toFinset.mpr hm)⟩
  have h1 := Finset.card_le_card hsub
  rw [Finset.card_range] at h1
  have h2 := List.toFinset_card_le l
  omega

theorem smallest_free_some (n : Nat) (q used : List Nat) (h : q.length + used.length < n) :
    ∃ c, smallest_free n q used = some c := by
  obtain ⟨v, hv, hvl⟩ := exists_free n (q ++ used) (by simpa using h)
  have : ((List.range n).find? (fun v => decide (v ∉ q) && !decide (v ∈ used))).isSome := by
    rw [List.find?_isSome]
    refine ⟨v, List.mem_range.mpr hv, ?_⟩
    simp only [List.mem_append, not_or] at hvl
    simp [hvl.1, hvl.2]
  exact Option.isSome_iff_exists.mp this

theorem smallest_free_spec (n : Nat) (q used : List Nat) (c : Nat)
    (h : smallest_free n q used = some c) :
    c < n ∧ c ∉ q ∧ c ∉ used ∧ ∀ v, v < n → v ∉ q → v ∉ used → c ≤ v := by
  unfold smallest_free at h
  rw [List.find?_range_eq_some] at h
  obtain ⟨h1, h2, h3⟩ := h
  simp only [Bool.and_eq_true, decide_eq_true_eq, Bool.not_eq_true', decide_eq_false_iff_not]
    at h1
  refine ⟨List.mem_range.mp h2, h1.1, h1.2, ?_⟩
  intro v _ hvq hvu
  by_contra hlt
  have := h3 v (by omega)
  simp [hvq, hvu] at this

theorem children_cons (n f : Nat) (q used : List Nat) (c : Nat)
    (h : smallest_free n (f :: q) used = some c) :
    children n (f :: q) used = c :: children n q (used ++ [c]) := by
  simp [children, h]

theorem children_length (n : Nat) (q used : List Nat) (h : q.length + used.length < n) :
    (children n q used).length = q.length := by
  induction q generalizing used with
  | nil => simp [children]
  | cons f q ih =>
    obtain ⟨c, hc⟩ := smallest_free_some n (f :: q) used h
    rw [children_cons n f q used c hc]
    simp only [List.length_cons, add_left_inj]
    apply ih
    simp only [List.length_cons, List.length_append, List.length_nil] at h ⊢
    omega

theorem while_loop_eq (n cols : Nat) (q used done : List Nat) (fuel : Nat)
    (hfuel : q.length ≤ fuel) (hfree : q.length + used.length < n)
    (hlen : done.length = used.length) (hcols : q.length + used.length ≤ cols) :
    while_loop n fuel (locals_at n cols q used done)
      = .ok (locals_at n cols [] (used ++ children n q used) (done ++ q)) := by
  induction q generalizing used done fuel with
  | nil =>
    unfold while_loop
    simp [locals_at, children]
  | cons f q ih =>
    obtain ⟨c, hc⟩ := smallest_free_some n (f :: q) used hfree
    simp only [List.length_cons] at hfuel hfree hcols
    obtain ⟨fuel', rfl⟩ : ∃ fuel', fuel = fuel' + 1 := ⟨fuel - 1, by omega⟩
    have hstep := step_eq n cols f q used done c hc hlen (by omega)
    have hrec := ih (used ++ [c]) (done ++ [f]) fuel' (by omega)
      (by simp only [List.length_append, List.length_cons, List.length_nil]; omega)
      (by simp [hlen])
      (by simp only [List.length_append, List.length_cons, List.length_nil]; omega)
    rw [children_cons n f q used c hc]
    unfold while_loop
    have hq : (locals_at n cols (f :: q) used done).pr_code = f :: q := rfl
    simp only [hq, hstep, ok_bind, hrec]
    simp

theorem unconsumed_succ_mem (i : Nat) (cs : List Nat) (h : i ∈ cs) :
    unconsumed (i + 1) cs = unconsumed i cs := by
  simp [unconsumed, List.range_succ, List.filter_append, h]

theorem unconsumed_succ_not_mem (i : Nat) (cs : List Nat) (h : i ∉ cs) :
    unconsumed (i + 1) cs = unconsumed i cs ++ [i] := by
  simp [unconsumed, List.range_succ, List.filter_append, h]

theorem last_pair_eq (n cols : Nat) (cs s : List Nat) (hlen : s.length = cs.length)
    (hcols : cs.length < cols) :
    last_pair n (locals_at n cols [] cs s)
      = .ok ([tab cols (fun j => (cs ++ (unconsumed n cs).take 1)[j]?),
              tab cols (fun j => (s ++ ((unconsumed n cs).drop 1).take 1)[j]?)],
             (unconsumed n cs).length) := by
  obtain ⟨p, hp, hP⟩ := for_loop_inv n
    (fun i (p : List (List (Option Nat)) × Nat) => do
      let c ← rd (tab n (fun v => some (decide (v ∈ cs)))) i
      if c = false then do
        let m ← match p.2 with
          | 0 => do
              let v ← rd (tab n (fun i => some i)) i
              wr2 p.1 0 cs.length v
          | 1 => do
              let v ← rd (tab n (fun i => some i)) i
              wr2 p.1 1 cs.length v
          | _ => .ok p.1
        .ok (m, p.2 + 1)
      else .ok p)
    (fun i p => p = ([tab cols (fun j => (cs ++ (unconsumed i cs).take 1)[j]?),
                      tab cols (fun j => (s ++ ((unconsumed i cs).drop 1).take 1)[j]?)],
                     (unconsumed i cs).length))
    ([tab cols (fun j => cs[j]?), tab cols (fun j => s[j]?)], 0)
    (by simp [unconsumed])
    (by
      intro i p hi hP
      subst hP
      refine ⟨_, ?_, rfl⟩
      have hrc : rd (tab n (fun v => some (decide (v ∈ cs)))) i = .ok (decide (i ∈ cs)) :=
        rd_tab n _ i _ hi rfl
      have hrv : rd (tab n (fun i => some i)) i = .ok i := rd_tab n _ i _ hi rfl
      simp only [hrc, hrv, ok_bind]
      by_cases hmem : i ∈ cs
      · simp [hmem, unconsumed_succ_mem i cs hmem]
      · rw [unconsumed_succ_not_mem i cs hmem]
        simp only [hmem, decide_False, if_true]
        rcases hU : unconsumed i cs with _ | ⟨u1, _ | ⟨u2, rest⟩⟩
        · simp only [List.length_nil, List.take_nil, List.append_nil, List.drop_nil,
            List.nil_append]
          rw [wr2_row0 _ _ _ _ (by simpa [tab_length] using hcols), tab_set_snoc]
          simp
        · simp only [List.length_cons, List.length_nil, List.append_nil]
          have h1 : ([u1] ++ [i]).take 1 = [u1] := rfl
          have h2 : (([u1] ++ [i]).drop 1).take 1 = [i] := rfl
          have h3 : ([u1] : List Nat).take 1 = [u1] := rfl
          have h4 : (([u1] : List Nat).drop 1).take 1 = [] := rfl
          simp only [h1, h2, h3, h4, List.append_nil, Nat.zero_add]
          rw [wr2_row1 _ _ _ _ (by simpa [tab_length, hlen] using hcols), ← hlen, tab_set_snoc]
          simp
        · simp)
  unfold last_pair
  simp only [locals_at]
  rw [hp, hP]

theorem make_tree_eq_tab (s : List Nat) (h : s.length + 2 < U32_MOD) :
    make_tree s s.length
      = .ok { edge_number := s.length + 1, vertex_number := s.length + 2,
              father_code :=
                [tab (s.length + 1) (fun j => (children (s.length + 2) s []
                    ++ (unconsumed (s.length + 2) (children (s.length + 2) s [])).take 1)[j]?),
                 tab (s.length + 1) (fun j => (s
                    ++ ((unconsumed (s.length + 2) (children (s.length + 2) s [])).drop 1).take
                        1)[j]?)] } := by
  have h2 : (s.length + 2) % U32_MOD = s.length + 2 := Nat.mod_eq_of_lt h
  have h1 : (s.length + 1) % U32_MOD = s.length + 1 := Nat.mod_eq_of_lt (by omega)
  have hcl : (children (s.length + 2) s []).length = s.length :=
    children_length _ s [] (by simp)
  have hw := while_loop_eq (s.length + 2) (s.length + 1) s [] [] s.length le_rfl (by simp) rfl
    (by simp)
  have hl := last_pair_eq (s.length + 2) (s.length + 1) (children (s.length + 2) s []) s
    hcl.symm (by omega)
  simp only [List.nil_append] at hw
  unfold make_tree
  simp only [init_locals_eq s h, ok_bind, h1, h2]
  have hq : (locals_at (s.length + 2) (s.length + 1) s [] []).pr_code.length = s.length := rfl
  rw [hq, hw]
  simp only [ok_bind, hl]

theorem children_free (n : Nat) (q used : List Nat) (h : q.length + used.length < n)
    (k : Nat) (hk : k < q.length) :
    smallest_free n (q.drop k) (used ++ (children n q used).take k)
      = (children n q used)[k]? := by
  induction q generalizing used k with
  | nil => simp at hk
  | cons f q ih =>
    obtain ⟨c, hc⟩ := smallest_free_some n (f :: q) used h
    rw [children_cons n f q used c hc]
    cases k with
    | zero => simpa using hc
    | succ k =>
      have := ih (used ++ [c])
        (by simp only [List.length_cons, List.length_append, List.length_nil] at h ⊢; omega)
        k (by simpa using hk)
      simpa using this

theorem tab_eq_map (cols : Nat) (l : List Nat) (h : l.length = cols) :
    tab cols (fun j => l[j]?) = l.map some := by
  apply List.ext_getElem?
  intro j
  rw [tab_getElem?, List.getElem?_map]
  by_cases hj : j < cols
  · simp [hj, List.getElem?_eq_getElem (h ▸ hj)]
  · simp [hj, List.getElem?_eq_none (by omega : l.length ≤ j)]

theorem nodup_of_fresh (l : List Nat) (h : ∀ k (hk : k < l.length), l[k] ∉ l.take k) :
    l.Nodup := by
  rw [List.nodup_iff_getElem?_ne_getElem?]
  intro i j hij hj heq
  have hi : i < l.length := by omega
  rw [List.getElem?_eq_getElem hi, List.getElem?_eq_getElem hj] at heq
  apply h j hj
  rw [List.mem_take_iff_getElem]
  exact ⟨i, by omega, by simpa using Option.some.inj heq⟩

theorem unconsumed_length (n : Nat) (cs : List Nat) (hnd : cs.Nodup) (hlt : ∀ v ∈ cs, v < n) :
    (unconsumed n cs).length + cs.length = n := by
  have hperm : List.Perm ((List.range n).filter (fun v => decide (v ∈ cs))) cs := by
    rw [List.perm_ext_iff_of_nodup ((List.nodup_range n).filter _) hnd]
    intro v
    simp only [List.mem_filter, List.mem_range, decide_eq_true_eq]
    exact ⟨fun h => h.2, fun h => ⟨hlt v h, h⟩⟩
  have hsum := List.length_eq_countP_add_countP (fun v => decide (v ∈ cs)) (List.range n)
  rw [List.countP_eq_length_filter, List.countP_eq_length_filter, hperm.length_eq,
    List.length_range] at hsum
  unfold unconsumed
  have hfun : (fun v => decide (v ∉ cs)) = (fun a => decide ¬(decide (a ∈ cs)) = true) := by
    funext v; simp
  rw [hfun]
  omega

theorem unconsumed_sorted (n : Nat) (cs : List Nat) :
    (unconsumed n cs).Pairwise (fun x y => x < y) :=
  (List.pairwise_lt_range n).filter _

theorem mem_unconsumed (n : Nat) (cs : List Nat) (v : Nat) :
    v ∈ unconsumed n cs ↔ v < n ∧ v ∉ cs := by
  simp [unconsumed]

theorem child_spec_of_free (s cs : List Nat) (hlen : cs.length = s.length)
    (hfree : ∀ k, k < s.length →
      smallest_free (s.length + 2) (s.drop k) (cs.take k) = cs[k]?)
    (k : Nat) (hk : k < cs.length) :
    cs[k] < s.length + 2 ∧ cs[k] ∉ s.drop k ∧ cs[k] ∉ cs.take k ∧
      ∀ v, v < s.length + 2 → v ∉ s.drop k → v ∉ cs.take k → cs[k] ≤ v := by
  have h := hfree k (by omega)
  rw [List.getElem?_eq_getElem hk] at h
  exact smallest_free_spec _ _ _ _ h

theorem nodup_of_free (s cs : List Nat) (hlen : cs.length = s.length)
    (hfree : ∀ k, k < s.length →
      smallest_free (s.length + 2) (s.drop k) (cs.take k) = cs[k]?) :
    cs.Nodup :=
  nodup_of_fresh cs (fun k hk => (child_spec_of_free s cs hlen hfree k hk).2.2.1)

theorem lt_of_free (s cs : List Nat) (hlen : cs.length = s.length)
    (hfree : ∀ k, k < s.length →
      smallest_free (s.length + 2) (s.drop k) (cs.take k) = cs[k]?) :
    ∀ v ∈ cs, v < s.length + 2 := by
  intro v hv
  obtain ⟨k, hk, rfl⟩ := List.getElem_of_mem hv
  exact (child_spec_of_free s cs hlen hfree k hk).1

theorem decoded_children (s : List Nat) :
    ∃ a b, Decoded s (children (s.length + 2) s []) a b := by
  have hlen : (children (s.length + 2) s []).length = s.length :=
    children_length _ s [] (by simp)
  have hfree : ∀ k, k < s.length →
      smallest_free (s.length + 2) (s.drop k) ((children (s.length + 2) s []).take k)
        = (children (s.length + 2) s [])[k]? := by
    intro k hk
    have := children_free (s.length + 2) s [] (by simp) k hk
    simpa using this
  have hU := unconsumed_length (s.length + 2) _ (nodup_of_free s _ hlen hfree)
    (lt_of_free s _ hlen hfree)
  rw [hlen] at hU
  have hU2 : (unconsumed (s.length + 2) (children (s.length + 2) s [])).length = 2 := by omega
  rcases hcase : unconsumed (s.length + 2) (children (s.length + 2) s []) with
    _ | ⟨a, _ | ⟨b, _ | ⟨c, rest⟩⟩⟩
  · rw [hcase] at hU2; simp at hU2
  · rw [hcase] at hU2; simp at hU2
  · exact ⟨a, b, ⟨hlen, hfree, hcase⟩⟩
  · rw [hcase] at hU2; simp at hU2

/-- The value of `make_tree` on any sequence whose vertex count fits 32 bits: the child row
is `cs` followed by `a`, the father row is the sequence followed by `b`. -/
theorem make_tree_decoded (s : List Nat) (h : s.length + 2 < U32_MOD) :
    ∃ cs a b, Decoded s cs a b ∧
      make_tree s s.length
        = .ok { edge_number := s.length + 1, vertex_number := s.length + 2,
                father_code := [(cs ++ [a]).map some, (s ++ [b]).map some] } := by
  obtain ⟨a, b, d⟩ := decoded_children s
  refine ⟨_, a, b, d, ?_⟩
  rw [make_tree_eq_tab s h, d.rest]
  have h1 : ([a, b] : List Nat).take 1 = [a] := rfl
  have h2 : (([a, b] : List Nat).drop 1).take 1 = [b] := rfl
  rw [h1, h2, tab_eq_map _ _ (by simp [d.length_eq]), tab_eq_map _ _ (by simp)]

theorem filterMap_zip_some (cs fs : List Nat) :
    (List.zip (cs.map some) (fs.map some)).filterMap
        (fun p => match p with
          | (some c, some f) => some (c, f)
          | _ => none)
      = List.zip cs fs := by
  induction cs generalizing fs with
  | nil => simp
  | cons c cs ih =>
    cases fs with
    | nil => simp
    | cons f fs =>
      simp only [List.map_cons, List.zip_cons_cons, List.filterMap_cons]
      rw [ih fs]

theorem edges_mk (e v : Nat) (cs fs : List Nat) :
    edges { edge_number := e, vertex_number := v,
            father_code := [cs.map some, fs.map some] } = List.zip cs fs := by
  have h0 : father_code_row (tree_t.mk e v [cs.map some, fs.map some]) 0 = cs.map some := rfl
  have h1 : father_code_row (tree_t.mk e v [cs.map some, fs.map some]) 1 = fs.map some := rfl
  simp only [edges, h0, h1]
  exact filterMap_zip_some cs fs

/-! ## Consequences of the characterisation -/

theorem decoded_nodup {s cs : List Nat} {a b : Nat} (d : Decoded s cs a b) : cs.Nodup :=
  nodup_of_free s cs d.length_eq d.free

theorem decoded_lt {s cs : List Nat} {a b : Nat} (d : Decoded s cs a b) :
    ∀ v ∈ cs, v < s.length + 2 :=
  lt_of_free s cs d.length_eq d.free

theorem decoded_not_later {s cs : List Nat} {a b : Nat} (d : Decoded s cs a b)
    (k : Nat) (hk : k < cs.length) : cs[k] ∉ s.drop k :=
  (child_spec_of_free s cs d.length_eq d.free k hk).2.1

theorem decoded_rest {s cs : List Nat} {a b : Nat} (d : Decoded s cs a b) :
    a < b ∧ a < s.length + 2 ∧ b < s.length + 2 ∧ a ∉ cs ∧ b ∉ cs := by
  have hsorted := unconsumed_sorted (s.length + 2) cs
  have ha := (mem_unconsumed (s.length + 2) cs a).mp (by rw [d.rest]; simp)
  have hb := (mem_unconsumed (s.length + 2) cs b).mp (by rw [d.rest]; simp)
  rw [d.rest] at hsorted
  simp only [List.pairwise_cons, List.mem_singleton, forall_eq] at hsorted
  exact ⟨hsorted.1, ha.1, hb.1, ha.2, hb.2⟩

theorem decoded_all_nodup {s cs : List Nat} {a b : Nat} (d : Decoded s cs a b) :
    (cs ++ [a, b]).Nodup := by
  obtain ⟨hab, _, _, ha, hb⟩ := decoded_rest d
  rw [List.nodup_append]
  refine ⟨decoded_nodup d, by simp; omega, ?_⟩
  intro x hx hx'
  simp only [List.mem_cons, List.mem_singleton, List.not_mem_nil, or_false] at hx'
  rcases hx' with rfl | rfl
  · exact ha hx
  · exact hb hx

theorem decoded_mem_all {s cs : List Nat} {a b : Nat} (d : Decoded s cs a b) (v : Nat) :
    v ∈ cs ++ [a, b] ↔ v < s.length + 2 := by
  have hU := mem_unconsumed (s.length + 2) cs v
  rw [d.rest] at hU
  rw [List.mem_append]
  constructor
  · rintro (h | h)
    · exact decoded_lt d v h
    · exact (hU.mp h).1
  · intro h
    by_cases hv : v ∈ cs
    · exact Or.inl hv
    · exact Or.inr (hU.mpr ⟨h, hv⟩)

theorem decoded_perm {s cs : List Nat} {a b : Nat} (d : Decoded s cs a b) :
    List.Perm (cs ++ [a, b]) (List.range (s.length + 2)) := by
  rw [List.perm_ext_iff_of_nodup (decoded_all_nodup d) (List.nodup_range _)]
  intro v
  rw [decoded_mem_all d, List.mem_range]

theorem mem_zip_snoc (cs s : List Nat) (a b : Nat) (hlen : cs.length = s.length)
    (c f : Nat) :
    (c, f) ∈ List.zip (cs ++ [a]) (s ++ [b])
      ↔ (∃ k : Nat, cs[k]? = some c ∧ s[k]? = some f) ∨ (c = a ∧ f = b) := by
  rw [List.zip_append hlen, List.mem_append]
  apply or_congr
  · rw [List.mem_iff_getElem?]
    apply exists_congr
    intro k
    rw [List.getElem?_zip_eq_some]
  · simp

theorem edge_ne {s cs : List Nat} {a b : Nat} (d : Decoded s cs a b) (c f : Nat)
    (h : (c, f) ∈ List.zip (cs ++ [a]) (s ++ [b])) : c ≠ f := by
  rw [mem_zip_snoc cs s a b d.length_eq] at h
  rcases h with ⟨k, hc, hf⟩ | ⟨rfl, rfl⟩
  · have hk : k < cs.length := (List.getElem?_eq_some_iff.mp hc).1
    have hks : k < s.length := (List.getElem?_eq_some_iff.mp hf).1
    have hc' : cs[k] = c := (List.getElem?_eq_some_iff.mp hc).2
    have hf' : s[k] = f := (List.getElem?_eq_some_iff.mp hf).2
    have hnl := decoded_not_later d k hk
    intro heq
    apply hnl
    rw [hc', heq, ← hf', List.drop_eq_getElem_cons hks]
    exact List.mem_cons_self _ _
  · exact (decoded_rest d).1.ne

theorem edge_lt {s cs : List Nat} {a b : Nat} (d : Decoded s cs a b) (hv : valid_sequence s)
    (c f : Nat) (h : (c, f) ∈ List.zip (cs ++ [a]) (s ++ [b])) :
    c < s.length + 2 ∧ f < s.length + 2 := by
  rw [mem_zip_snoc cs s a b d.length_eq] at h
  rcases h with ⟨k, hc, hf⟩ | ⟨rfl, rfl⟩
  · exact ⟨decoded_lt d c (List.getElem?_mem hc), hv f (List.getElem?_mem hf)⟩
  · exact ⟨(decoded_rest d).2.1, (decoded_rest d).2.2.1⟩

theorem make_tree_edges (s : List Nat) (h : s.length + 2 < U32_MOD) :
    ∃ cs a b, Decoded s cs a b ∧ ∃ t, make_tree s s.length = .ok t ∧
      t.edge_number = s.length + 1 ∧ t.vertex_number = s.length + 2 ∧
      t.father_code = [(cs ++ [a]).map some, (s ++ [b]).map some] ∧
      edges t = List.zip (cs ++ [a]) (s ++ [b]) := by
  obtain ⟨cs, a, b, d, ht⟩ := make_tree_decoded s h
  exact ⟨cs, a, b, d, _, ht, rfl, rfl, rfl, edges_mk _ _ _ _⟩

theorem zip_snoc_getElem? (cs s : List Nat) (a b : Nat) (k : Nat) (hkc : k < cs.length)
    (hks : k < s.length) :
    (List.zip (cs ++ [a]) (s ++ [b]))[k]? = some (cs[k], s[k]) := by
  rw [List.getElem?_zip_eq_some]
  constructor
  · rw [List.getElem?_append_left hkc, List.getElem?_eq_getElem hkc]
  · rw [List.getElem?_append_left hks, List.getElem?_eq_getElem hks]

theorem zip_snoc_length (cs s : List Nat) (a b : Nat) (hlen : cs.length = s.length) :
    (List.zip (cs ++ [a]) (s ++ [b])).length = s.length + 1 := by
  simp [List.length_zip, hlen]

theorem zip_snoc_fst (cs s : List Nat) (a b : Nat) (hlen : cs.length = s.length) :
    (List.zip (cs ++ [a]) (s ++ [b])).map Prod.fst = cs ++ [a] :=
  List.map_fst_zip _ _ (by simp [hlen])

theorem zip_snoc_snd (cs s : List Nat) (a b : Nat) (hlen : cs.length = s.length) :
    (List.zip (cs ++ [a]) (s ++ [b])).map Prod.snd = s ++ [b] :=
  List.map_snd_zip _ _ (by simp [hlen])

theorem degree_zip (A B : List Nat) (hlen : A.length = B.length)
    (hne : ∀ c f, (c, f) ∈ List.zip A B → c ≠ f) (v : Nat) :
    degree (List.zip A B) v = A.count v + B.count v := by
  induction A generalizing B with
  | nil => cases B <;> simp_all [degree]
  | cons x A ih =>
    cases B with
    | nil => simp at hlen
    | cons y B =>
      have hxy : x ≠ y := hne x y (by simp)
      have ih' := ih B (by simpa using hlen)
        (fun c f hcf => hne c f (by simp only [List.zip_cons_cons]; exact List.mem_cons_of_mem _ hcf))
      unfold degree at ih' ⊢
      simp only [List.zip_cons_cons, List.countP_cons, List.count_cons, ih']
      by_cases h1 : x = v
      · have h2 : ¬ y = v := fun h => hxy (h1.trans h.symm)
        simp [h1, h2]
        omega
      · by_cases h2 : y = v
        · simp [h1, h2]
          omega
        · simp [h1, h2]

theorem decoded_count {s cs : List Nat} {a b : Nat} (d : Decoded s cs a b) (v : Nat)
    (hv : v < s.length + 2) : (cs ++ [a, b]).count v = 1 :=
  List.count_eq_one_of_mem (decoded_all_nodup d) ((decoded_mem_all d v).mpr hv)

/-! ## Re-encoding the decoded tree -/

theorem find?_congr_mem {α : Type} (l : List α) (p q : α → Bool)
    (h : ∀ x ∈ l, p x = q x) : l.find? p = l.find? q := by
  induction l with
  | nil => rfl
  | cons x l ih =>
    have hx := h x (List.mem_cons_self _ _)
    have ih' := ih (fun y hy => h y (List.mem_cons_of_mem _ hy))
    simp only [List.find?_cons, hx, ih']

theorem suffix_edge_mem (cs s : List Nat) (a b k : Nat) (hlen : cs.length = s.length)
    (c f : Nat) (h : (c, f) ∈ List.zip (cs.drop k ++ [a]) (s.drop k ++ [b])) :
    (c, f) ∈ List.zip (cs ++ [a]) (s ++ [b]) := by
  rw [mem_zip_snoc _ _ a b (by simp [hlen])] at h
  rw [mem_zip_snoc _ _ a b hlen]
  rcases h with ⟨j, hc, hf⟩ | h
  · left
    rw [List.getElem?_drop] at hc hf
    exact ⟨k + j, hc, hf⟩
  · exact Or.inr h

theorem suffix_degree {s cs : List Nat} {a b : Nat} (d : Decoded s cs a b) (k v : Nat)
    (hv : v < s.length + 2) (hfresh : v ∉ cs.take k) :
    degree (List.zip (cs.drop k ++ [a]) (s.drop k ++ [b])) v = 1 + (s.drop k).count v := by
  rw [degree_zip _ _ (by simp [d.length_eq])
    (fun c f h => edge_ne d c f (suffix_edge_mem cs s a b k d.length_eq c f h)) v]
  have hc := decoded_count d v hv
  have hsplit : cs ++ [a, b] = cs.take k ++ (cs.drop k ++ [a, b]) := by
    rw [← List.append_assoc, List.take_append_drop]
  rw [hsplit, List.count_append, List.count_eq_zero_of_not_mem hfresh] at hc
  simp only [List.count_append, List.count_cons, List.count_nil] at hc ⊢
  omega

theorem suffix_leaf {s cs : List Nat} {a b : Nat} (d : Decoded s cs a b) (k : Nat)
    (hk : k < s.length) :
    (unconsumed (s.length + 2) (cs.take k)).find?
        (fun v => degree (List.zip (cs.drop k ++ [a]) (s.drop k ++ [b])) v == 1)
      = cs[k]? := by
  rw [← d.free k hk]
  unfold unconsumed smallest_free
  rw [List.find?_filter]
  apply find?_congr_mem
  intro v hv
  have hvn : v < s.length + 2 := List.mem_range.mp hv
  by_cases hfresh : v ∈ cs.take k
  · simp [hfresh]
  · rw [suffix_degree d k v hvn hfresh]
    by_cases hq : v ∈ s.drop k
    · have hpos : 0 < (s.drop k).count v := List.count_pos_iff.mpr hq
      have : ¬ (1 + (s.drop k).count v = 1) := by omega
      simp [hfresh, hq, this]
    · simp [hfresh, hq, List.count_eq_zero_of_not_mem hq]

theorem unconsumed_erase (n : Nat) (cs : List Nat) (k : Nat) (hk : k < cs.length) :
    (unconsumed n (cs.take k)).erase cs[k] = unconsumed n (cs.take (k + 1)) := by
  unfold unconsumed
  rw [List.Nodup.erase_eq_filter ((List.nodup_range n).filter _), List.filter_filter]
  apply List.filter_congr
  intro v _
  have hmem : v ∈ cs.take (k + 1) ↔ v ∈ cs.take k ∨ v = cs[k] := by
    rw [List.take_succ, List.getElem?_eq_getElem hk]
    simp only [Option.toList, List.mem_append, List.mem_singleton]
  simp only [hmem]
  by_cases h1 : v = cs[k] <;> by_cases h2 : v ∈ cs.take k <;> simp [h1, h2]

theorem encode_suffix {s cs : List Nat} {a b : Nat} (d : Decoded s cs a b) :
    ∀ j k, j + k = s.length →
      prufer_encode_loop j (unconsumed (s.length + 2) (cs.take k))
        (List.zip (cs.drop k ++ [a]) (s.drop k ++ [b])) = some (s.drop k) := by
  intro j
  induction j with
  | zero =>
    intro k hk
    have : s.length ≤ k := by omega
    simp [prufer_encode_loop, List.drop_eq_nil_of_le this]
  | succ j ih =>
    intro k hk
    have hks : k < s.length := by omega
    have hkc : k < cs.length := by rw [d.length_eq]; exact hks
    have hleaf := suffix_leaf d k hks
    rw [List.getElem?_eq_getElem hkc] at hleaf
    have hrec := ih (k + 1) (by omega)
    have hcs : cs.drop k = cs[k] :: cs.drop (k + 1) := List.drop_eq_getElem_cons hkc
    have hs : s.drop k = s[k] :: s.drop (k + 1) := List.drop_eq_getElem_cons hks
    unfold prufer_encode_loop
    simp only [hleaf]
    rw [unconsumed_erase _ cs k hkc]
    simp only [hcs, hs, List.cons_append, List.zip_cons_cons, List.find?_cons, decide_True,
      Bool.true_or, List.erase_cons_head, hrec, Option.map_some', if_true]

theorem unconsumed_nil (n : Nat) : unconsumed n [] = List.range n := by
  simp [unconsumed]

/-! ## The decoded edges form a tree -/

theorem connected_of_rank {V : Type} (G : SimpleGraph V) (rank : V → ℕ) (root : V)
    (hup : ∀ v, v ≠ root → ∃ p, G.Adj v p ∧ rank v < rank p)
    (hbound : ∀ v, rank v ≤ rank root) : G.Connected := by
  have hreach : ∀ j v, rank root - rank v ≤ j → G.Reachable v root := by
    intro j
    induction j with
    | zero =>
      intro v hv
      by_cases h : v = root
      · subst h; exact SimpleGraph.Reachable.refl _
      · obtain ⟨p, _, hlt⟩ := hup v h
        have := hbound p
        omega
    | succ j ih =>
      intro v hv
      by_cases h : v = root
      · subst h; exact SimpleGraph.Reachable.refl _
      · obtain ⟨p, hadj, hlt⟩ := hup v h
        have := hbound p
        exact hadj.reachable.trans (ih p (by omega))
  haveI : Nonempty V := ⟨root⟩
  exact SimpleGraph.Connected.mk (fun u v => (hreach _ u le_rfl).trans (hreach _ v le_rfl).symm)

theorem isAcyclic_of_rank {V : Type} (G : SimpleGraph V) (rank : V → ℕ)
    (hne : ∀ u v, G.Adj u v → rank u ≠ rank v)
    (huniq : ∀ v p q, G.Adj v p → G.Adj v q → rank v < rank p → rank v < rank q → p = q) :
    G.IsAcyclic := by
  classical
  intro v c hc
  -- a vertex of least rank on the cycle, and the cycle rotated to start there
  obtain ⟨u, hu, hmin⟩ := Finset.exists_min_image c.support.toFinset rank
    ⟨v, List.mem_toFinset.mpr c.start_mem_support⟩
  rw [List.mem_toFinset] at hu
  have hc' := hc.rotate hu
  have hmin' : ∀ w ∈ (c.rotate hu).support, rank u ≤ rank w := by
    intro w hw
    apply hmin w
    rw [List.mem_toFinset]
    have hrot := SimpleGraph.Walk.support_rotate c hu
    rw [SimpleGraph.Walk.support_eq_cons] at hw
    rcases List.mem_cons.mp hw with rfl | hw
    · exact hu
    · have : w ∈ c.support.tail := hrot.mem_iff.mp hw
      exact List.mem_of_mem_tail this
  generalize c.rotate hu = c' at hc' hmin'
  cases c' with
  | nil => exact hc'.ne_nil rfl
  | cons h p =>
    rename_i w1
    rw [SimpleGraph.Walk.cons_isCycle_iff] at hc'
    obtain ⟨hpath, hedge⟩ := hc'
    have hnil : ¬ p.reverse.Nil := SimpleGraph.Walk.not_nil_of_ne h.ne
    have hadj2 : G.Adj u (p.reverse.getVert 1) := SimpleGraph.Walk.adj_getVert_one hnil
    have hmem : s(u, p.reverse.getVert 1) ∈ p.edges := by
      have h1 := congrArg SimpleGraph.Walk.edges (SimpleGraph.Walk.cons_tail_eq p.reverse hnil)
      rw [SimpleGraph.Walk.edges_cons, SimpleGraph.Walk.edges_reverse] at h1
      have : s(u, p.reverse.getVert 1) ∈ p.edges.reverse := by
        rw [← h1]; exact List.mem_cons_self _ _
      exact List.mem_reverse.mp this
    have hw2 : p.reverse.getVert 1 ∈ p.support := SimpleGraph.Walk.snd_mem_support_of_mem_edges p hmem
    have hw1 : w1 ∈ p.support := p.start_mem_support
    have hr1 : rank u < rank w1 :=
      lt_of_le_of_ne (hmin' w1 (by simp [hw1])) (hne u w1 h)
    have hr2 : rank u < rank (p.reverse.getVert 1) :=
      lt_of_le_of_ne (hmin' _ (by simp [hw2])) (hne u _ hadj2)
    have heq := huniq u w1 _ h hadj2 hr1 hr2
    rw [← heq] at hmem
    exact hedge hmem

theorem indexOf_of_getElem? (l : List Nat) (hnd : l.Nodup) (k x : Nat)
    (h : l[k]? = some x) : l.indexOf x = k := by
  obtain ⟨hk, hx⟩ := List.getElem?_eq_some_iff.mp h
  rw [← hx]
  exact List.indexOf_getElem hnd k hk

theorem zip_fst_unique (A B : List Nat) (hnd : A.Nodup) (x y z : Nat)
    (hy : (x, y) ∈ List.zip A B) (hz : (x, z) ∈ List.zip A B) : y = z := by
  obtain ⟨i, hi⟩ := List.mem_iff_getElem?.mp hy
  obtain ⟨j, hj⟩ := List.mem_iff_getElem?.mp hz
  rw [List.getElem?_zip_eq_some] at hi hj
  have hij : i = j := by
    rw [← indexOf_of_getElem? A hnd i x hi.1, ← indexOf_of_getElem? A hnd j x hj.1]
  subst hij
  have := hi.2.symm.trans hj.2
  exact Option.some.inj this

theorem edge_rank {s cs : List Nat} {a b : Nat} (d : Decoded s cs a b) (c f : Nat)
    (hf : f < s.length + 2) (h : (c, f) ∈ List.zip (cs ++ [a]) (s ++ [b])) :
    (cs ++ [a, b]).indexOf c < (cs ++ [a, b]).indexOf f := by
  have hnd := decoded_all_nodup d
  have hfmem : f ∈ cs ++ [a, b] := (decoded_mem_all d f).mpr hf
  have hj : (cs ++ [a, b]).indexOf f < (cs ++ [a, b]).length := List.indexOf_lt_length.mpr hfmem
  have hLj : (cs ++ [a, b])[(cs ++ [a, b]).indexOf f]? = some f := by
    rw [List.getElem?_eq_getElem hj, List.getElem_indexOf hj]
  rw [mem_zip_snoc cs s a b d.length_eq] at h
  rcases h with ⟨k, hc, hfk⟩ | ⟨rfl, rfl⟩
  · have hk : k < cs.length := (List.getElem?_eq_some_iff.mp hc).1
    have hks : k < s.length := (List.getElem?_eq_some_iff.mp hfk).1
    have hfk' : s[k] = f := (List.getElem?_eq_some_iff.mp hfk).2
    have hck : (cs ++ [a, b])[k]? = some c := by rw [List.getElem?_append_left hk]; exact hc
    rw [indexOf_of_getElem? _ hnd k c hck]
    by_contra hle
    have hjk : (cs ++ [a, b]).indexOf f ≤ k := by omega
    have hjc : (cs ++ [a, b]).indexOf f < cs.length := by omega
    rw [List.getElem?_append_left hjc, List.getElem?_eq_getElem hjc] at hLj
    have hcj : cs[(cs ++ [a, b]).indexOf f] = f := Option.some.inj hLj
    apply decoded_not_later d _ hjc
    rw [hcj, List.mem_drop_iff_getElem]
    exact ⟨k - (cs ++ [a, b]).indexOf f, by omega, by
      simp only [Nat.add_sub_cancel' hjk]; exact hfk'⟩
  · have ha : (cs ++ [c, f])[cs.length]? = some c := by
      rw [List.getElem?_append_right (le_refl _)]; simp
    have hb : (cs ++ [c, f])[cs.length + 1]? = some f := by
      rw [List.getElem?_append_right (by omega)]; simp
    rw [indexOf_of_getElem? _ hnd _ c ha, indexOf_of_getElem? _ hnd _ f hb]
    omega

theorem tree_graph_adj (n : Nat) (es : List (Nat × Nat)) (u v : Fin n) :
    (tree_graph n es).Adj u v ↔ u ≠ v ∧ ((u.val, v.val) ∈ es ∨ (v.val, u.val) ∈ es) := by
  simp [tree_graph, SimpleGraph.fromRel_adj]

theorem decoded_is_tree {s cs : List Nat} {a b : Nat} (d : Decoded s cs a b)
    (hv : valid_sequence s) :
    (tree_graph (s.length + 2) (List.zip (cs ++ [a]) (s ++ [b]))).Connected ∧
      (tree_graph (s.length + 2) (List.zip (cs ++ [a]) (s ++ [b]))).IsAcyclic := by
  have hnd := decoded_all_nodup d
  obtain ⟨hab, han, hbn, hacs, hbcs⟩ := decoded_rest d
  have hrankb : (cs ++ [a, b]).indexOf b = cs.length + 1 := by
    apply indexOf_of_getElem? _ hnd
    rw [List.getElem?_append_right (by omega)]; simp
  have hdir : ∀ u w : Fin (s.length + 2),
      (u.val, w.val) ∈ List.zip (cs ++ [a]) (s ++ [b]) →
        (cs ++ [a, b]).indexOf u.val < (cs ++ [a, b]).indexOf w.val :=
    fun u w h => edge_rank d u.val w.val w.isLt h
  constructor
  · apply connected_of_rank _ (fun v : Fin (s.length + 2) => (cs ++ [a, b]).indexOf v.val)
      ⟨b, hbn⟩
    · intro v hvb
      have hvmem : v.val ∈ cs ++ [a, b] := (decoded_mem_all d v.val).mpr v.isLt
      have hvb' : v.val ≠ b := fun h => hvb (Fin.ext h)
      have hvA : v.val ∈ cs ++ [a] := by
        simp only [List.mem_append, List.mem_cons, List.mem_singleton, List.not_mem_nil,
          or_false] at hvmem ⊢
        tauto
      obtain ⟨k, hk⟩ := List.mem_iff_getElem?.mp hvA
      have hkA : k < (cs ++ [a]).length := (List.getElem?_eq_some_iff.mp hk).1
      have hkB : k < (s ++ [b]).length := by
        simp only [List.length_append, List.length_cons, List.length_nil, d.length_eq] at hkA ⊢
        exact hkA
      have hedge : (v.val, (s ++ [b])[k]) ∈ List.zip (cs ++ [a]) (s ++ [b]) := by
        rw [List.mem_iff_getElem?]
        exact ⟨k, List.getElem?_zip_eq_some.mpr ⟨hk, List.getElem?_eq_getElem hkB⟩⟩
      have hflt := (edge_lt d hv _ _ hedge).2
      refine ⟨⟨(s ++ [b])[k], hflt⟩, ?_, edge_rank d _ _ hflt hedge⟩
      rw [tree_graph_adj]
      exact ⟨fun h => edge_ne d _ _ hedge (congrArg Fin.val h), Or.inl hedge⟩
    · intro v
      show (cs ++ [a, b]).indexOf v.val ≤ (cs ++ [a, b]).indexOf b
      have hvmem : v.val ∈ cs ++ [a, b] := (decoded_mem_all d v.val).mpr v.isLt
      have := List.indexOf_lt_length.mpr hvmem
      simp only [List.length_append, List.length_cons, List.length_nil] at this
      omega
  · apply isAcyclic_of_rank _ (fun v : Fin (s.length + 2) => (cs ++ [a, b]).indexOf v.val)
    · intro u w hadj
      rw [tree_graph_adj] at hadj
      rcases hadj.2 with h | h
      · exact (hdir u w h).ne
      · exact (hdir w u h).ne'
    · intro v p q hp hq hrp hrq
      rw [tree_graph_adj] at hp hq
      have hvp : (v.val, p.val) ∈ List.zip (cs ++ [a]) (s ++ [b]) := by
        rcases hp.2 with h | h
        · exact h
        · exact absurd (hdir p v h) (Nat.lt_asymm hrp)
      have hvq : (v.val, q.val) ∈ List.zip (cs ++ [a]) (s ++ [b]) := by
        rcases hq.2 with h | h
        · exact h
        · exact absurd (hdir q v h) (Nat.lt_asymm hrq)
      have hA : (cs ++ [a]).Nodup := by
        have hall : cs ++ [a] ++ [b] = cs ++ [a, b] := by simp
        rw [← hall] at hnd
        exact (List.nodup_append.mp hnd).1
      exact Fin.ext (zip_fst_unique _ _ hA _ _ _ hvp hvq)

/-! ## The properties of `make_tree`

In every statement `make_tree s s.length` is the call `make_tree(s, m)` on an array holding
the sequence `s` of length `m`, the hypothesis `hfit` says that `m + 2` fits the 32-bit
`vertex_number`, and `valid_sequence s` is the range precondition on the elements. -/

/-- C3: on a valid sequence `make_tree` follows the canonical decoding rule: the `k`-th edge
written, for `k < m`, is `(child, s[k])` where `child` is a vertex of the universe that does
not occur in `s[k..]` and is no earlier child, and is the smallest vertex with these two
properties. -/
theorem make_tree_canonical_rule (s : List Nat) (hfit : s.length + 2 < U32_MOD)
    (_hv : valid_sequence s) :
    ∃ t, make_tree s s.length = .ok t ∧
      ∀ k, k < s.length → ∃ child father,
        (edges t)[k]? = some (child, father) ∧ s[k]? = some father ∧
        child < s.length + 2 ∧ child ∉ s.drop k ∧
        (∀ j e, j < k → (edges t)[j]? = some e → e.1 ≠ child) ∧
        ∀ v, v < s.length + 2 → v ∉ s.drop k →
          (∀ j e, j < k → (edges t)[j]? = some e → e.1 ≠ v) → child ≤ v := by
  obtain ⟨cs, a, b, d, t, ht, _, _, _, hE⟩ := make_tree_edges s hfit
  refine ⟨t, ht, ?_⟩
  intro k hk
  have hkc : k < cs.length := by rw [d.length_eq]; exact hk
  obtain ⟨h1, h2, h3, h4⟩ := child_spec_of_free s cs d.length_eq d.free k hkc
  have hprev : ∀ v, v ∈ cs.take k → ∃ j e, j < k ∧ (edges t)[j]? = some e ∧ e.1 = v := by
    intro v hv
    rw [List.mem_take_iff_getElem] at hv
    obtain ⟨j, hj, rfl⟩ := hv
    have hjc : j < cs.length := by omega
    have hjs : j < s.length := by omega
    exact ⟨j, (cs[j], s[j]), by omega, by rw [hE]; exact zip_snoc_getElem? cs s a b j hjc hjs,
      rfl⟩
  refine ⟨cs[k], s[k], by rw [hE]; exact zip_snoc_getElem? cs s a b k hkc hk,
    List.getElem?_eq_getElem hk, h1, h2, ?_, ?_⟩
  · intro j e hj he heq
    apply h3
    rw [hE, List.getElem?_zip_eq_some] at he
    have hjc : j < cs.length := by omega
    rw [List.getElem?_append_left hjc, List.getElem?_eq_getElem hjc] at he
    rw [List.mem_take_iff_getElem]
    exact ⟨j, by omega, by rw [← heq]; exact Option.some.inj he.1⟩
  · intro v hv hvs hvp
    apply h4 v hv hvs
    intro hmem
    obtain ⟨j, e, hj, he, hev⟩ := hprev v hmem
    exact hvp j e hj he hev

/-- Witness of C3 on the sequence `[3, 3, 3, 4]`. -/
theorem make_tree_canonical_rule_witness :
    ∃ t, make_tree [3, 3, 3, 4] [3, 3, 3, 4].length = .ok t ∧
      ∀ k, k < [3, 3, 3, 4].length → ∃ child father,
        (edges t)[k]? = some (child, father) ∧ [3, 3, 3, 4][k]? = some father ∧
        child < [3, 3, 3, 4].length + 2 ∧ child ∉ [3, 3, 3, 4].drop k ∧
        (∀ j e, j < k → (edges t)[j]? = some e → e.1 ≠ child) ∧
        ∀ v, v < [3, 3, 3, 4].length + 2 → v ∉ [3, 3, 3, 4].drop k →
          (∀ j e, j < k → (edges t)[j]? = some e → e.1 ≠ v) → child ≤ v :=
  make_tree_canonical_rule [3, 3, 3, 4] (by decide) (by decide)

/-- C4: degree law. On a valid sequence, every vertex `v` of the universe is an endpoint of
exactly `1 + (number of occurrences of v in the sequence)` returned edges. -/
theorem make_tree_degree_law (s : List Nat) (hfit : s.length + 2 < U32_MOD)
    (_hv : valid_sequence s) :
    ∃ t, make_tree s s.length = .ok t ∧
      ∀ v, v < s.length + 2 → degree (edges t) v = 1 + s.count v := by
  obtain ⟨cs, a, b, d, t, ht, _, _, _, hE⟩ := make_tree_edges s hfit
  refine ⟨t, ht, ?_⟩
  intro v hv
  rw [hE, degree_zip _ _ (by simp [d.length_eq]) (fun c f h => edge_ne d c f h) v]
  have hc := decoded_count d v hv
  simp only [List.count_append, List.count_cons, List.count_nil] at hc ⊢
  omega

/-- Witness of C4 on the sequence `[3, 3, 3, 4]`. -/
theorem make_tree_degree_law_witness :
    ∃ t, make_tree [3, 3, 3, 4] 4 = .ok t ∧
      ∀ v, v < 4 + 2 → degree (edges t) v = 1 + [3, 3, 3, 4].count v :=
  make_tree_degree_law [3, 3, 3, 4] (by decide) (by decide)

/-- C6: on a valid sequence of length `m`, `make_tree` returns `m + 1` edges, each with
both endpoints in `{0, ..., m + 1}` and with its child different from its father. -/
theorem make_tree_edges_in_range (s : List Nat) (hfit : s.length + 2 < U32_MOD)
    (hv : valid_sequence s) :
    ∃ t, make_tree s s.length = .ok t ∧ (edges t).length = s.length + 1 ∧
      ∀ e ∈ edges t, e.1 < s.length + 2 ∧ e.2 < s.length + 2 ∧ e.1 ≠ e.2 := by
  obtain ⟨cs, a, b, d, t, ht, _, _, _, hE⟩ := make_tree_edges s hfit
  refine ⟨t, ht, by rw [hE]; exact zip_snoc_length cs s a b d.length_eq, ?_⟩
  rintro ⟨c, f⟩ he
  rw [hE] at he
  exact ⟨(edge_lt d hv c f he).1, (edge_lt d hv c f he).2, edge_ne d c f he⟩

/-- Witness of C6 on the sequence `[0, 0]`. -/
theorem make_tree_edges_in_range_witness :
    ∃ t, make_tree [0, 0] 2 = .ok t ∧ (edges t).length = 2 + 1 ∧
      ∀ e ∈ edges t, e.1 < 2 + 2 ∧ e.2 < 2 + 2 ∧ e.1 ≠ e.2 :=
  make_tree_edges_in_range [0, 0] (by decide) (by decide)

theorem loop_state_eq (s : List Nat) (h : s.length + 2 < U32_MOD) :
    ∃ cs a b, Decoded s cs a b ∧
      init_locals s s.length = .ok (locals_at (s.length + 2) (s.length + 1) s [] []) ∧
      while_loop (s.length + 2) s.length (locals_at (s.length + 2) (s.length + 1) s [] [])
        = .ok (locals_at (s.length + 2) (s.length + 1) [] cs s) ∧
      last_pair (s.length + 2) (locals_at (s.length + 2) (s.length + 1) [] cs s)
        = .ok ([(cs ++ [a]).map some, (s ++ [b]).map some], 2) := by
  obtain ⟨a, b, d⟩ := decoded_children s
  refine ⟨_, a, b, d, init_locals_eq s h, ?_, ?_⟩
  · have hw := while_loop_eq (s.length + 2) (s.length + 1) s [] [] s.length le_rfl (by simp)
      rfl (by simp)
    simpa using hw
  · rw [last_pair_eq _ _ _ _ d.length_eq.symm (by rw [d.length_eq]; omega), d.rest]
    have h1 : ([a, b] : List Nat).take 1 = [a] := rfl
    have h2 : (([a, b] : List Nat).drop 1).take 1 = [b] := rfl
    rw [h1, h2, tab_eq_map _ _ (by simp [d.length_eq]), tab_eq_map _ _ (by simp)]
    rfl

theorem cell_tab (cols : Nat) (g0 g1 : Nat → Option Nat) (r j : Nat) (hr : r < 2)
    (hj : j < cols) :
    cell [tab cols g0, tab cols g1] r j = if r = 0 then g0 j else g1 j := by
  have hget : ∀ g : Nat → Option Nat, (tab cols g).getD j none = g j := by
    intro g
    rw [List.getD_eq_getElem?_getD, tab_getElem?, if_pos hj]
    rfl
  interval_cases r
  · simpa [cell] using hget g0
  · simpa [cell] using hget g1

theorem cell_map_some (l0 l1 : List Nat) (r j : Nat) (hr : r < 2) :
    cell [l0.map some, l1.map some] r j = if r = 0 then l0[j]? else l1[j]? := by
  have hget : ∀ l : List Nat, (l.map some).getD j none = l[j]? := by
    intro l
    rw [List.getD_eq_getElem?_getD, List.getElem?_map]
    cases l[j]? <;> rfl
  interval_cases r
  · simpa [cell] using hget l0
  · simpa [cell] using hget l1

/-- C5: on a valid sequence of length `m`, `make_tree` returns a tree with
`edge_number = m + 1` and `vertex_number = m + 2`.  When the decoding loop ends,
`col_index = m` and exactly the columns `0 .. m - 1` of both rows are written; the final
step writes column `m`, so that the returned matrix has `m + 1` written columns, which are
the `m + 1` edges. -/
theorem make_tree_counts (s : List Nat) (hfit : s.length + 2 < U32_MOD)
    (_hv : valid_sequence s) :
    ∃ st0 st t, init_locals s s.length = .ok st0 ∧
      while_loop (s.length + 2) st0.pr_code.length st0 = .ok st ∧
      last_pair (s.length + 2) st = .ok (t.father_code, 2) ∧
      make_tree s s.length = .ok t ∧
      t.edge_number = s.length + 1 ∧ t.vertex_number = s.length + 2 ∧
      st.col_index = s.length ∧
      (∀ r j, r < 2 → j < s.length + 1 →
        ((cell st.father_code_matrix r j).isSome ↔ j < s.length)) ∧
      t.father_code.length = 2 ∧ (∀ row ∈ t.father_code, row.length = s.length + 1) ∧
      (∀ r j, r < 2 → j < s.length + 1 → (cell t.father_code r j).isSome) ∧
      (edges t).length = s.length + 1 := by
  obtain ⟨cs, a, b, d, h0, hw, hl⟩ := loop_state_eq s hfit
  have ht := make_tree_eq_tab s hfit
  have hcs : cs.length = s.length := d.length_eq
  refine ⟨_, _, ⟨s.length + 1, s.length + 2, [(cs ++ [a]).map some, (s ++ [b]).map some]⟩,
    h0, hw, hl, ?_, rfl, rfl, hcs, ?_, rfl, ?_, ?_, ?_⟩
  · unfold make_tree
    simp only [h0, ok_bind, Nat.mod_eq_of_lt hfit,
      Nat.mod_eq_of_lt (show s.length + 1 < U32_MOD by omega)]
    have hq : (locals_at (s.length + 2) (s.length + 1) s [] []).pr_code.length = s.length := rfl
    rw [hq, hw]
    simp only [ok_bind, hl]
  · intro r j hr hj
    simp only [locals_at]
    rw [cell_tab _ _ _ r j hr hj]
    by_cases h : r = 0
    · simp only [h, if_true]
      rw [← hcs]
      constructor
      · intro hsome
        by_contra hlt
        rw [List.getElem?_eq_none (by omega)] at hsome
        simp at hsome
      · intro hlt
        rw [List.getElem?_eq_getElem hlt]
        rfl
    · simp only [h, if_false]
      constructor
      · intro hsome
        by_contra hlt
        rw [List.getElem?_eq_none (by omega)] at hsome
        simp at hsome
      · intro hlt
        rw [List.getElem?_eq_getElem hlt]
        rfl
  · intro row hrow
    simp only [List.mem_cons, List.mem_singleton, List.not_mem_nil, or_false] at hrow
    rcases hrow with rfl | rfl <;> simp [hcs]
  · intro r j hr hj
    rw [cell_map_some _ _ r j hr]
    by_cases h : r = 0
    · simp only [h, if_true]
      rw [List.getElem?_eq_getElem (by simp [hcs]; omega)]
      rfl
    · simp only [h, if_false]
      rw [List.getElem?_eq_getElem (by simp; omega)]
      rfl
  · rw [edges_mk]
    exact zip_snoc_length cs s a b hcs

/-- Witness of C5 on the sequence `[0, 0]`. -/
theorem make_tree_counts_witness :
    ∃ st0 st t, init_locals [0, 0] 2 = .ok st0 ∧
      while_loop (2 + 2) st0.pr_code.length st0 = .ok st ∧
      last_pair (2 + 2) st = .ok (t.father_code, 2) ∧
      make_tree [0, 0] 2 = .ok t ∧
      t.edge_number = 2 + 1 ∧ t.vertex_number = 2 + 2 ∧
      st.col_index = 2 ∧
      (∀ r j, r < 2 → j < 2 + 1 →
        ((cell st.father_code_matrix r j).isSome ↔ j < 2)) ∧
      t.father_code.length = 2 ∧ (∀ row ∈ t.father_code, row.length = 2 + 1) ∧
      (∀ r j, r < 2 → j < 2 + 1 → (cell t.father_code r j).isSome) ∧
      (edges t).length = 2 + 1 :=
  make_tree_counts [0, 0] (by decide) (by decide)

/-- C7: on a valid sequence the child slots of the returned edges are pairwise distinct;
the father `r` of the final edge is never a child, every other vertex of the universe is the
child of exactly one edge, and the child row followed by `r` lists the universe
`{0, ..., m + 1}` exactly once each. -/
theorem make_tree_children_cover (s : List Nat) (hfit : s.length + 2 < U32_MOD)
    (_hv : valid_sequence s) :
    ∃ t r, make_tree s s.length = .ok t ∧
      ((edges t).map Prod.fst).Nodup ∧
      (edges t).getLast?.map Prod.snd = some r ∧
      r < s.length + 2 ∧
      (∀ v, v < s.length + 2 →
        (edges t).countP (fun e => decide (e.1 = v)) = if v = r then 0 else 1) ∧
      List.Perm ((edges t).map Prod.fst ++ [r]) (List.range (s.length + 2)) := by
  obtain ⟨cs, a, b, d, t, ht, _, _, _, hE⟩ := make_tree_edges s hfit
  have hfst := zip_snoc_fst cs s a b d.length_eq
  have hnd := decoded_all_nodup d
  have hall : cs ++ [a] ++ [b] = cs ++ [a, b] := by simp
  refine ⟨t, b, ht, ?_, ?_, (decoded_rest d).2.2.1, ?_, ?_⟩
  · rw [hE, hfst]
    rw [← hall] at hnd
    exact (List.nodup_append.mp hnd).1
  · rw [hE, List.zip_append d.length_eq]
    simp
  · intro v hv
    have hcount : (edges t).countP (fun e => decide (e.1 = v)) = (cs ++ [a]).count v := by
      rw [← hfst, hE, List.count, List.countP_map]
      congr 1
    have hc := decoded_count d v hv
    rw [hcount]
    simp only [List.count_append, List.count_cons, List.count_nil, beq_iff_eq] at hc ⊢
    by_cases hvb : v = b
    · have hbv : b = v := hvb.symm
      rw [if_pos hvb]
      rw [if_pos hbv] at hc
      omega
    · have hbv : ¬ b = v := fun h => hvb h.symm
      rw [if_neg hvb]
      rw [if_neg hbv] at hc
      omega
  · rw [hE, hfst, hall]
    exact decoded_perm d

/-- Witness of C7 on the sequence `[3, 3, 3, 4]`. -/
theorem make_tree_children_cover_witness :
    ∃ t r, make_tree [3, 3, 3, 4] 4 = .ok t ∧
      ((edges t).map Prod.fst).Nodup ∧
      (edges t).getLast?.map Prod.snd = some r ∧
      r < 4 + 2 ∧
      (∀ v, v < 4 + 2 →
        (edges t).countP (fun e => decide (e.1 = v)) = if v = r then 0 else 1) ∧
      List.Perm ((edges t).map Prod.fst ++ [r]) (List.range (4 + 2)) :=
  make_tree_children_cover [3, 3, 3, 4] (by decide) (by decide)

/-- C8, the claim fails: the sequence `[5]` of length 1 contains the element `5 ≥ 1 + 2`,
and `make_tree` returns the two edges `(0, 5)` and `(1, 2)` instead of failing. -/
theorem make_tree_accepts_out_of_range :
    (∃ x ∈ [5], 1 + 2 ≤ x) ∧
      ∃ t, make_tree [5] 1 = .ok t ∧ edges t = [(0, 5), (1, 2)] :=
  ⟨⟨5, by decide, by decide⟩, ⟨2, 3, [[some 0, some 1], [some 5, some 2]]⟩, rfl, rfl⟩

/-- C8 as amended: `make_tree` performs no input validation.  For every sequence of length
`m`, whatever its elements, it returns `m + 1` edges, and the fathers of the first `m` edges
are the elements of the sequence, unchanged and in order. -/
theorem make_tree_no_validation (s : List Nat) (hfit : s.length + 2 < U32_MOD) :
    ∃ t, make_tree s s.length = .ok t ∧ (edges t).length = s.length + 1 ∧
      ((edges t).map Prod.snd).take s.length = s := by
  obtain ⟨cs, a, b, d, t, ht, _, _, _, hE⟩ := make_tree_edges s hfit
  refine ⟨t, ht, by rw [hE]; exact zip_snoc_length cs s a b d.length_eq, ?_⟩
  rw [hE, zip_snoc_snd cs s a b d.length_eq]
  simp

/-- Witness of the amended C8 on the out-of-range sequence `[5]`. -/
theorem make_tree_no_validation_witness :
    ∃ t, make_tree [5] 1 = .ok t ∧ (edges t).length = 1 + 1 ∧
      ((edges t).map Prod.snd).take 1 = [5] :=
  make_tree_no_validation [5] (by decide)

/-- C9, the claim fails: decoding `[0, 0]` does not return the pair `(3, 0)`; the final edge
has child `0` and father `3`. -/
theorem make_tree_zero_zero_last_pair :
    ∃ t, make_tree [0, 0] 2 = .ok t ∧ (3, 0) ∉ edges t ∧ (edges t)[2]? = some (0, 3) :=
  ⟨⟨3, 4, [[some 1, some 2, some 0], [some 0, some 0, some 3]]⟩, rfl, by decide, rfl⟩

/-- C9 as amended: decoding `[0, 0]` returns the three `(child, father)` pairs `(1, 0)`,
`(2, 0)`, `(0, 3)`, in this order, and vertex `0` is the only vertex of degree greater
than 1. -/
theorem make_tree_zero_zero :
    ∃ t, make_tree [0, 0] 2 = .ok t ∧ edges t = [(1, 0), (2, 0), (0, 3)] ∧
      ∀ v, v < 4 → (1 < degree (edges t) v ↔ v = 0) :=
  ⟨⟨3, 4, [[some 1, some 2, some 0], [some 0, some 0, some 3]]⟩, rfl, rfl, by decide⟩

/-- C10, the claim fails: in the tree decoded from `[3, 3, 3, 4]` vertex `3` has degree 4,
not 3. -/
theorem make_tree_example_degree_not_three :
    ∃ t, make_tree [3, 3, 3, 4] 4 = .ok t ∧ degree (edges t) 3 ≠ 3 :=
  ⟨⟨5, 6, [[some 0, some 1, some 2, some 3, some 4], [some 3, some 3, some 3, some 4, some 5]]⟩,
    rfl, by decide⟩

/-- C10 as amended: decoding `[3, 3, 3, 4]` returns the edges `(0, 3)`, `(1, 3)`, `(2, 3)`,
`(3, 4)`, `(4, 5)`, in which vertex `3` has degree 4 and vertex `4` has degree 2. -/
theorem make_tree_example_degrees :
    ∃ t, make_tree [3, 3, 3, 4] 4 = .ok t ∧
      edges t = [(0, 3), (1, 3), (2, 3), (3, 4), (4, 5)] ∧
      degree (edges t) 3 = 4 ∧ degree (edges t) 4 = 2 :=
  ⟨⟨5, 6, [[some 0, some 1, some 2, some 3, some 4], [some 3, some 3, some 3, some 4, some 5]]⟩,
    rfl, rfl, by decide, by decide⟩

/-- C2: round trip. On a valid sequence `s`, the standard Prüfer encoding of the tree
returned by `make_tree` is `s` itself. -/
theorem make_tree_round_trip (s : List Nat) (hfit : s.length + 2 < U32_MOD)
    (_hv : valid_sequence s) :
    ∃ t, make_tree s s.length = .ok t ∧ prufer_encode (s.length + 2) (edges t) = some s := by
  obtain ⟨cs, a, b, d, t, ht, _, _, _, hE⟩ := make_tree_edges s hfit
  refine ⟨t, ht, ?_⟩
  have h := encode_suffix d s.length 0 rfl
  rw [List.take_zero, unconsumed_nil] at h
  simpa [prufer_encode, hE] using h

/-- Witness of C2 on the sequence `[3, 3, 3, 4]`. -/
theorem make_tree_round_trip_witness :
    ∃ t, make_tree [3, 3, 3, 4] 4 = .ok t ∧
      prufer_encode (4 + 2) (edges t) = some [3, 3, 3, 4] :=
  make_tree_round_trip [3, 3, 3, 4] (by decide) (by decide)

/-- C1: on a valid sequence of length `m`, the `m + 1` edges returned by `make_tree`, read
as undirected edges on the vertices `{0, ..., m + 1}`, form a tree: the graph is connected
and has no cycle. -/
theorem make_tree_is_tree (s : List Nat) (hfit : s.length + 2 < U32_MOD)
    (hv : valid_sequence s) :
    ∃ t, make_tree s s.length = .ok t ∧ (edges t).length = s.length + 1 ∧
      (tree_graph (s.length + 2) (edges t)).Connected ∧
      (tree_graph (s.length + 2) (edges t)).IsAcyclic := by
  obtain ⟨cs, a, b, d, t, ht, _, _, _, hE⟩ := make_tree_edges s hfit
  refine ⟨t, ht, by rw [hE]; exact zip_snoc_length cs s a b d.length_eq, ?_⟩
  rw [hE]
  exact decoded_is_tree d hv

/-- Witness of C1 on the sequence `[3, 3, 3, 4]`. -/
theorem make_tree_is_tree_witness :
    ∃ t, make_tree [3, 3, 3, 4] 4 = .ok t ∧ (edges t).length = 4 + 1 ∧
      (tree_graph (4 + 2) (edges t)).Connected ∧
      (tree_graph (4 + 2) (edges t)).IsAcyclic :=
  make_tree_is_tree [3, 3, 3, 4] (by decide) (by decide)

/-! ## The decoding loop, iteration by iteration -/

theorem run_steps_eq (n cols : Nat) (q used done : List Nat) (k : Nat)
    (hk : k ≤ q.length) (hfree : q.length + used.length < n)
    (hlen : done.length = used.length) (hcols : q.length + used.length ≤ cols) :
    run_steps n k (locals_at n cols q used done)
      = .ok (locals_at n cols (q.drop k) (used ++ (children n q used).take k)
          (done ++ q.take k)) := by
  induction k generalizing q used done with
  | zero => simp [run_steps]
  | succ k ih =>
    cases q with
    | nil => simp at hk
    | cons f q =>
      obtain ⟨c, hc⟩ := smallest_free_some n (f :: q) used hfree
      simp only [List.length_cons] at hk hfree hcols
      have hstep := step_eq n cols f q used done c hc hlen (by omega)
      have hrec := ih q (used ++ [c]) (done ++ [f]) (by omega)
        (by simp only [List.length_append, List.length_cons, List.length_nil]; omega)
        (by simp [hlen])
        (by simp only [List.length_append, List.length_cons, List.length_nil]; omega)
      rw [children_cons n f q used c hc]
      unfold run_steps
      simp only [hstep, ok_bind, hrec]
      simp

/-- The variables of `make_tree` at the head of every iteration of the decoding loop, after
the loop and after the final step, for an arbitrary sequence. -/
theorem steps_state_eq (s : List Nat) (h : s.length + 2 < U32_MOD) :
    ∃ cs a b, Decoded s cs a b ∧
      init_locals s s.length = .ok (locals_at (s.length + 2) (s.length + 1) s [] []) ∧
      (∀ k, k ≤ s.length →
        run_steps (s.length + 2) k (locals_at (s.length + 2) (s.length + 1) s [] [])
          = .ok (locals_at (s.length + 2) (s.length + 1) (s.drop k) (cs.take k) (s.take k))) ∧
      while_loop (s.length + 2) s.length (locals_at (s.length + 2) (s.length + 1) s [] [])
        = .ok (locals_at (s.length + 2) (s.length + 1) [] cs s) ∧
      make_tree s s.length
        = .ok { edge_number := s.length + 1, vertex_number := s.length + 2,
                father_code := [(cs ++ [a]).map some, (s ++ [b]).map some] } ∧
      last_pair (s.length + 2) (locals_at (s.length + 2) (s.length + 1) [] cs s)
        = .ok ([(cs ++ [a]).map some, (s ++ [b]).map some], 2) := by
  obtain ⟨a, b, d⟩ := decoded_children s
  refine ⟨_, a, b, d, init_locals_eq s h, ?_, ?_, ?_, ?_⟩
  · intro k hk
    have hr := run_steps_eq (s.length + 2) (s.length + 1) s [] [] k hk (by simp) rfl (by simp)
    simpa using hr
  · have hw := while_loop_eq (s.length + 2) (s.length + 1) s [] [] s.length le_rfl (by simp)
      rfl (by simp)
    simpa using hw
  · rw [make_tree_eq_tab s h, d.rest]
    have h1 : ([a, b] : List Nat).take 1 = [a] := rfl
    have h2 : (([a, b] : List Nat).drop 1).take 1 = [b] := rfl
    rw [h1, h2, tab_eq_map _ _ (by simp [d.length_eq]), tab_eq_map _ _ (by simp)]
  · rw [last_pair_eq _ _ _ _ d.length_eq.symm (by rw [d.length_eq]; omega), d.rest]
    have h1 : ([a, b] : List Nat).take 1 = [a] := rfl
    have h2 : (([a, b] : List Nat).drop 1).take 1 = [b] := rfl
    rw [h1, h2, tab_eq_map _ _ (by simp [d.length_eq]), tab_eq_map _ _ (by simp)]
    rfl

theorem V_enabled_at (n cols : Nat) (q used done : List Nat) (v : Nat) :
    (locals_at n cols q used done).V_enabled[v]? = some (some true) ↔ v < n ∧ v ∉ q := by
  simp only [locals_at, tab_getElem?]
  by_cases hv : v < n <;> simp [hv]

theorem V_consumed_at (n cols : Nat) (q used done : List Nat) (v : Nat) :
    (locals_at n cols q used done).V_consumed[v]? = some (some false) ↔ v < n ∧ v ∉ used := by
  simp only [locals_at, tab_getElem?]
  by_cases hv : v < n <;> simp [hv]

theorem is_eligible_at (n cols : Nat) (q used done : List Nat) (v : Nat) :
    is_eligible (locals_at n cols q used done) v = true ↔ v < n ∧ v ∉ q ∧ v ∉ used := by
  unfold is_eligible
  rw [Bool.and_eq_true, decide_eq_true_iff, decide_eq_true_iff, V_enabled_at, V_consumed_at]
  tauto

theorem not_consumed_at (n cols : Nat) (q used done : List Nat) (v : Nat) :
    not_consumed (locals_at n cols q used done) v = true ↔ v < n ∧ v ∉ used := by
  unfold not_consumed
  rw [decide_eq_true_iff, V_consumed_at]

theorem free_count (n : Nat) (q used : List Nat) :
    n ≤ (List.range n).countP (fun v => decide (v ∉ q) && decide (v ∉ used))
          + (q.length + used.length) := by
  have hsum := List.length_eq_countP_add_countP
    (fun v => decide (v ∉ q) && decide (v ∉ used)) (List.range n)
  rw [List.length_range] at hsum
  have hle : (List.range n).countP
      (fun a => decide ¬((decide (a ∉ q) && decide (a ∉ used)) = true))
        ≤ q.length + used.length := by
    rw [List.countP_eq_length_filter, ← List.length_append]
    apply List.Subperm.length_le
    apply List.subperm_of_subset ((List.nodup_range n).filter _)
    intro v hv
    simp only [List.mem_filter, List.mem_range, Bool.and_eq_true, decide_eq_true_eq,
      not_and, not_not] at hv
    rw [List.mem_append]
    by_cases hq : v ∈ q
    · exact Or.inl hq
    · exact Or.inr (hv.2 hq)
  omega

theorem eligible_count (n cols : Nat) (q used done : List Nat) :
    (List.range n).countP (is_eligible (locals_at n cols q used done))
      = (List.range n).countP (fun v => decide (v ∉ q) && decide (v ∉ used)) := by
  apply List.countP_congr
  intro v hv
  rw [is_eligible_at, Bool.and_eq_true, decide_eq_true_iff, decide_eq_true_iff]
  have := List.mem_range.mp hv
  tauto

theorem not_consumed_filter (n cols : Nat) (q used done : List Nat) :
    (List.range n).filter (not_consumed (locals_at n cols q used done)) = unconsumed n used := by
  unfold unconsumed
  apply List.filter_congr
  intro v hv
  have hvn := List.mem_range.mp hv
  by_cases h : v ∈ used
  · have : ¬ (not_consumed (locals_at n cols q used done) v = true) := by
      rw [not_consumed_at]; tauto
    simp [h, this]
  · have : not_consumed (locals_at n cols q used done) v = true := by
      rw [not_consumed_at]; exact ⟨hvn, h⟩
    simp [h, this]

theorem child_lt_last {s cs : List Nat} {a b : Nat} (d : Decoded s cs a b) (k : Nat)
    (hk : k < cs.length) : cs[k] < s.length + 1 := by
  obtain ⟨_, _, _, hmin⟩ := child_spec_of_free s cs d.length_eq d.free k hk
  have hlen : (s.drop k ++ cs.take k).length < s.length + 1 := by
    simp only [List.length_append, List.length_drop, List.length_take]
    have := d.length_eq
    omega
  obtain ⟨v, hv, hvl⟩ := exists_free (s.length + 1) _ hlen
  rw [List.mem_append, not_or] at hvl
  have := hmin v (by omega) hvl.1 hvl.2
  omega

theorem last_father_eq {s cs : List Nat} {a b : Nat} (d : Decoded s cs a b) :
    b = s.length + 1 := by
  obtain ⟨hab, han, hbn, _, _⟩ := decoded_rest d
  have hnot : s.length + 1 ∉ cs := by
    intro hmem
    obtain ⟨k, hk, hx⟩ := List.getElem_of_mem hmem
    have := child_lt_last d k hk
    omega
  have hmem : s.length + 1 ∈ unconsumed (s.length + 2) cs :=
    (mem_unconsumed _ _ _).mpr ⟨by omega, hnot⟩
  rw [d.rest] at hmem
  simp only [List.mem_cons, List.mem_singleton, List.not_mem_nil, or_false] at hmem
  omega

theorem run_steps_succ_last (len k : Nat) (st : Locals) :
    run_steps len (k + 1) st = run_steps len k st >>= step len := by
  induction k generalizing st with
  | zero =>
    simp only [run_steps, ok_bind]
    cases step len st <;> rfl
  | succ k ih =>
    rw [run_steps]
    cases hs : step len st with
    | error e => simp [run_steps, hs]
    | ok st' =>
      simp only [ok_bind]
      rw [ih st']
      conv_rhs => rw [run_steps]
      simp [hs]

theorem drop_ne_nil_of_lt (s : List Nat) (k : Nat) (hk : k < s.length) : s.drop k ≠ [] := by
  intro hnil
  have := congrArg List.length hnil
  simp only [List.length_drop, List.length_nil] at this
  omega

theorem next_step_ok (len k : Nat) (st0 st st1 : Locals)
    (hcur : run_steps len k st0 = .ok st) (hnext : run_steps len (k + 1) st0 = .ok st1) :
    step len st = .ok st1 := by
  have h := run_steps_succ_last len k st0
  rw [hnext, hcur] at h
  exact h.symm

theorem enqueue_all_eq (q xs : List Nat) : enqueue_all q xs = q ++ xs := by
  unfold enqueue_all
  induction xs generalizing q with
  | nil => simp
  | cons x xs ih => simp [List.foldl_cons, ih, enqueue_eq_append]

theorem dequeue_many_append (xs r : List Nat) :
    dequeue_many xs.length (xs ++ r) = (xs, r) := by
  induction xs with
  | nil => simp [dequeue_many]
  | cons x xs ih => simp [dequeue_many, dequeue, ih]

/-! ## The queue, the boundary case and the loop invariants -/

/-- C11: boundary `m = 0`. On the empty sequence the queue is empty when the loop is
reached, so the loop returns the variables unchanged (`col_index` stays 0, no iteration is
executed), and `make_tree` returns exactly one edge, with child `0` and father `1`. -/
theorem make_tree_empty :
    ∃ st0 t, init_locals [] 0 = .ok st0 ∧ st0.pr_code = [] ∧ st0.col_index = 0 ∧
      (∀ fuel, while_loop 2 fuel st0 = .ok st0) ∧
      make_tree [] 0 = .ok t ∧ t.edge_number = 1 ∧
      t.father_code = [[some 0], [some 1]] ∧ edges t = [(0, 1)] :=
  ⟨{ pr_code := [], V := [some 0, some 1], V_enabled := [some true, some true],
     V_consumed := [some false, some false], father_code_matrix := [[none], [none]],
     col_index := 0 },
   ⟨1, 2, [[some 0], [some 1]]⟩, rfl, rfl, rfl, fun fuel => by cases fuel <;> rfl,
   rfl, rfl, rfl, rfl⟩

/-- C12: the queue is first-in first-out. `enqueue` appends at the tail, and after the
values of `xs` are enqueued in order onto the empty queue, `xs.length` calls of `dequeue`
return the values of `xs` in the same order and leave the queue empty. -/
theorem queue_fifo :
    (∀ q x, enqueue q x = q ++ [x]) ∧
      ∀ xs, dequeue_many xs.length (enqueue_all create_queue xs) = (xs, []) := by
  refine ⟨enqueue_eq_append, ?_⟩
  intro xs
  rw [enqueue_all_eq, create_queue, List.nil_append]
  have h := dequeue_many_append xs []
  rwa [List.append_nil] at h

/-- C13: `dequeue` on the empty queue returns `NULL` and leaves the queue empty; on a
non-empty queue it returns the head element and leaves the remaining elements in their
order. -/
theorem dequeue_contract :
    dequeue [] = (NULL, []) ∧
      ∀ q, q ≠ [] → q.head? = some (dequeue q).1 ∧ (dequeue q).2 = q.tail ∧
        q = (dequeue q).1 :: (dequeue q).2 := by
  refine ⟨rfl, ?_⟩
  intro q hq
  cases q with
  | nil => exact absurd rfl hq
  | cons x q => exact ⟨rfl, rfl, rfl⟩

/-- Witness of C13 on the queue `[7, 0, 9]`. -/
theorem dequeue_contract_witness :
    [7, 0, 9].head? = some (dequeue [7, 0, 9]).1 ∧ (dequeue [7, 0, 9]).2 = [7, 0, 9].tail ∧
      [7, 0, 9] = (dequeue [7, 0, 9]).1 :: (dequeue [7, 0, 9]).2 :=
  dequeue_contract.2 [7, 0, 9] (by decide)

/-- C14: termination step. On a valid sequence, when the decoding loop ends the queue is
empty and exactly two vertices `a < b` have `V_consumed = false`; the final edge has `a` in
the child slot and `b` in the father slot. -/
theorem make_tree_last_edge (s : List Nat) (hfit : s.length + 2 < U32_MOD)
    (_hv : valid_sequence s) :
    ∃ st0 st t a b, init_locals s s.length = .ok st0 ∧
      while_loop (s.length + 2) st0.pr_code.length st0 = .ok st ∧ st.pr_code = [] ∧
      make_tree s s.length = .ok t ∧
      (List.range (s.length + 2)).filter (not_consumed st) = [a, b] ∧ a < b ∧
      (edges t).length = s.length + 1 ∧ (edges t)[s.length]? = some (a, b) := by
  obtain ⟨cs, a, b, d, h0, _, hw, ht, _⟩ := steps_state_eq s hfit
  refine ⟨_, _, _, a, b, h0, hw, rfl, ht, ?_, (decoded_rest d).1, ?_, ?_⟩
  · rw [not_consumed_filter, d.rest]
  · rw [edges_mk]
    exact zip_snoc_length cs s a b d.length_eq
  · rw [edges_mk, List.getElem?_zip_eq_some]
    constructor
    · rw [List.getElem?_append_right (by rw [d.length_eq]), d.length_eq]; simp
    · rw [List.getElem?_append_right (le_refl _)]; simp

/-- Witness of C14 on the sequence `[3, 3, 3, 4]`. -/
theorem make_tree_last_edge_witness :
    ∃ st0 st t a b, init_locals [3, 3, 3, 4] 4 = .ok st0 ∧
      while_loop (4 + 2) st0.pr_code.length st0 = .ok st ∧ st.pr_code = [] ∧
      make_tree [3, 3, 3, 4] 4 = .ok t ∧
      (List.range (4 + 2)).filter (not_consumed st) = [a, b] ∧ a < b ∧
      (edges t).length = 4 + 1 ∧ (edges t)[4]? = some (a, b) :=
  make_tree_last_edge [3, 3, 3, 4] (by decide) (by decide)

/-- C15: on a valid sequence, at the head of every iteration of the decoding loop the queue
is not empty and some vertex is enabled and not consumed, so the iteration does not take
the `exit(EXIT_FAILURE)` branch, and `make_tree` returns a tree. -/
theorem make_tree_never_exits (s : List Nat) (hfit : s.length + 2 < U32_MOD)
    (_hv : valid_sequence s) :
    ∃ st0, init_locals s s.length = .ok st0 ∧
      (∀ k, k < s.length → ∃ st, run_steps (s.length + 2) k st0 = .ok st ∧
        st.pr_code ≠ [] ∧
        (∃ v, v < s.length + 2 ∧ is_eligible st v = true) ∧
        ∃ st', step (s.length + 2) st = .ok st') ∧
      ∃ t, make_tree s s.length = .ok t := by
  obtain ⟨cs, a, b, d, h0, hsteps, _, ht, _⟩ := steps_state_eq s hfit
  refine ⟨_, h0, ?_, _, ht⟩
  intro k hk
  have hkc : k < cs.length := by rw [d.length_eq]; exact hk
  obtain ⟨h1, h2, h3, _⟩ := child_spec_of_free s cs d.length_eq d.free k hkc
  refine ⟨_, hsteps k (by omega), ?_, ⟨cs[k], h1, ?_⟩, ?_⟩
  · show s.drop k ≠ []
    intro hnil
    have := congrArg List.length hnil
    simp only [List.length_drop, List.length_nil] at this
    omega
  · rw [is_eligible_at]
    exact ⟨h1, h2, h3⟩
  · have hnext := hsteps (k + 1) (by omega)
    have hcur := hsteps k (by omega)
    have hunfold : run_steps (s.length + 2) (k + 1)
        (locals_at (s.length + 2) (s.length + 1) s [] [])
          = run_steps (s.length + 2) k (locals_at (s.length + 2) (s.length + 1) s [] [])
              >>= step (s.length + 2) := run_steps_succ_last _ _ _
    rw [hnext, hcur] at hunfold
    exact ⟨_, hunfold.symm⟩

/-- Witness of C15 on the sequence `[3, 3, 3, 4]`. -/
theorem make_tree_never_exits_witness :
    ∃ st0, init_locals [3, 3, 3, 4] 4 = .ok st0 ∧
      (∀ k, k < 4 → ∃ st, run_steps (4 + 2) k st0 = .ok st ∧
        st.pr_code ≠ [] ∧
        (∃ v, v < 4 + 2 ∧ is_eligible st v = true) ∧
        ∃ st', step (4 + 2) st = .ok st') ∧
      ∃ t, make_tree [3, 3, 3, 4] 4 = .ok t :=
  make_tree_never_exits [3, 3, 3, 4] (by decide) (by decide)

/-- C16: enabled-flag invariant. For every sequence, initially and after every decoding
step, `V_enabled` is the table of the full recomputation `enabled[v] := NOT contains(queue,
v)`: vertex `v` of the universe is enabled if and only if it is not among the queued
elements.  In particular the update of lines 263-267, which only sets flags to true,
produces this table from the flags of the previous iteration. -/
theorem enabled_invariant (s : List Nat) (hfit : s.length + 2 < U32_MOD) :
    ∃ st0, init_locals s s.length = .ok st0 ∧
      (∀ k, k ≤ s.length → ∃ st, run_steps (s.length + 2) k st0 = .ok st ∧
        st.V_enabled
          = (List.range (s.length + 2)).map (fun v => some (decide (v ∉ st.pr_code))) ∧
        ∀ v, v < s.length + 2 → (st.V_enabled[v]? = some (some true) ↔ v ∉ st.pr_code)) ∧
      (∀ k, k < s.length → ∃ st, run_steps (s.length + 2) k st0 = .ok st ∧
        refresh_enabled (s.length + 2) st.V (dequeue st.pr_code).2 st.V_enabled
          = .ok ((List.range (s.length + 2)).map
              (fun v => some (decide (v ∉ (dequeue st.pr_code).2))))) := by
  obtain ⟨cs, a, b, d, h0, hsteps, _, _, _⟩ := steps_state_eq s hfit
  refine ⟨_, h0, ?_, ?_⟩
  · intro k hk
    refine ⟨_, hsteps k hk, rfl, ?_⟩
    intro v hv
    rw [V_enabled_at]
    exact ⟨fun h => h.2, fun h => ⟨hv, h⟩⟩
  · intro k hk
    refine ⟨_, hsteps k (by omega), ?_⟩
    have hs : s.drop k = s[k] :: s.drop (k + 1) := List.drop_eq_getElem_cons hk
    simp only [locals_at, hs, dequeue]
    exact refresh_enabled_eq (s.length + 2) s[k] (s.drop (k + 1))

/-- Witness of C16 on the sequence `[3, 3, 3, 4]`. -/
theorem enabled_invariant_witness :
    ∃ st0, init_locals [3, 3, 3, 4] 4 = .ok st0 ∧
      (∀ k, k ≤ 4 → ∃ st, run_steps (4 + 2) k st0 = .ok st ∧
        st.V_enabled
          = (List.range (4 + 2)).map (fun v => some (decide (v ∉ st.pr_code))) ∧
        ∀ v, v < 4 + 2 → (st.V_enabled[v]? = some (some true) ↔ v ∉ st.pr_code)) ∧
      (∀ k, k < 4 → ∃ st, run_steps (4 + 2) k st0 = .ok st ∧
        refresh_enabled (4 + 2) st.V (dequeue st.pr_code).2 st.V_enabled
          = .ok ((List.range (4 + 2)).map
              (fun v => some (decide (v ∉ (dequeue st.pr_code).2))))) :=
  enabled_invariant [3, 3, 3, 4] (by decide)

/-- C17: for every sequence `s` of length `m`, the queue holds `s` before the first step,
after `k` steps it holds the suffix `s[k..]` (so every step removes exactly one element and
the queue is empty exactly after `m` steps), and the `while` loop ends in the state reached
after exactly `m` iterations, with the queue empty. -/
theorem queue_shrinks (s : List Nat) (hfit : s.length + 2 < U32_MOD) :
    ∃ st0, init_locals s s.length = .ok st0 ∧ st0.pr_code = s ∧
      (∀ k, k ≤ s.length → ∃ st, run_steps (s.length + 2) k st0 = .ok st ∧
        st.pr_code = s.drop k ∧ st.pr_code.length = s.length - k ∧ st.col_index = k ∧
        (st.pr_code = [] ↔ k = s.length)) ∧
      ∃ st, while_loop (s.length + 2) st0.pr_code.length st0 = .ok st ∧
        run_steps (s.length + 2) s.length st0 = .ok st ∧ st.pr_code = [] ∧
        st.col_index = s.length := by
  obtain ⟨cs, a, b, d, h0, hsteps, hw, _, _⟩ := steps_state_eq s hfit
  refine ⟨_, h0, rfl, ?_, _, hw, ?_, rfl, d.length_eq⟩
  · intro k hk
    refine ⟨_, hsteps k hk, rfl, by simp [locals_at], ?_, ?_⟩
    · simp only [locals_at, List.length_take, d.length_eq]
      omega
    · show s.drop k = [] ↔ k = s.length
      constructor
      · intro hnil
        by_contra hne
        exact drop_ne_nil_of_lt s k (by omega) hnil
      · intro h; rw [h, List.drop_length]
  · have h := hsteps s.length le_rfl
    rw [List.drop_length, List.take_length] at h
    have hcs : cs.take s.length = cs := by rw [← d.length_eq, List.take_length]
    rw [hcs] at h
    exact h

/-- Witness of C17 on the sequence `[3, 3, 3, 4]`. -/
theorem queue_shrinks_witness :
    ∃ st0, init_locals [3, 3, 3, 4] 4 = .ok st0 ∧ st0.pr_code = [3, 3, 3, 4] ∧
      (∀ k, k ≤ 4 → ∃ st, run_steps (4 + 2) k st0 = .ok st ∧
        st.pr_code = [3, 3, 3, 4].drop k ∧ st.pr_code.length = 4 - k ∧ st.col_index = k ∧
        (st.pr_code = [] ↔ k = 4)) ∧
      ∃ st, while_loop (4 + 2) st0.pr_code.length st0 = .ok st ∧
        run_steps (4 + 2) 4 st0 = .ok st ∧ st.pr_code = [] ∧
        st.col_index = 4 :=
  queue_shrinks [3, 3, 3, 4] (by decide)

/-- C18: for every sequence, whatever the values of its elements, at the head of every
iteration of the decoding loop at least two vertices are enabled and not consumed, so the
iteration succeeds (the `exit(EXIT_FAILURE)` branch is not taken); `make_tree` returns a
tree and exactly two vertices are not consumed when the loop ends. -/
theorem two_eligible (s : List Nat) (hfit : s.length + 2 < U32_MOD) :
    ∃ st0, init_locals s s.length = .ok st0 ∧
      (∀ k, k < s.length → ∃ st, run_steps (s.length + 2) k st0 = .ok st ∧
        2 ≤ (List.range (s.length + 2)).countP (is_eligible st) ∧
        ∃ st', step (s.length + 2) st = .ok st') ∧
      ∃ st t, while_loop (s.length + 2) st0.pr_code.length st0 = .ok st ∧
        make_tree s s.length = .ok t ∧
        (List.range (s.length + 2)).countP (not_consumed st) = 2 := by
  obtain ⟨cs, a, b, d, h0, hsteps, hw, ht, _⟩ := steps_state_eq s hfit
  refine ⟨_, h0, ?_, _, _, hw, ht, ?_⟩
  · intro k hk
    refine ⟨_, hsteps k (by omega), ?_, _, next_step_ok _ k _ _ _ (hsteps k (by omega))
      (hsteps (k + 1) (by omega))⟩
    rw [eligible_count]
    have hc := free_count (s.length + 2) (s.drop k) (cs.take k)
    simp only [List.length_drop, List.length_take, d.length_eq] at hc
    omega
  · rw [List.countP_eq_length_filter, not_consumed_filter, d.rest]
    rfl

/-- Witness of C18 on the sequence `[7, 7, 7]`, whose elements are outside the universe. -/
theorem two_eligible_witness :
    ∃ st0, init_locals [7, 7, 7] 3 = .ok st0 ∧
      (∀ k, k < 3 → ∃ st, run_steps (3 + 2) k st0 = .ok st ∧
        2 ≤ (List.range (3 + 2)).countP (is_eligible st) ∧
        ∃ st', step (3 + 2) st = .ok st') ∧
      ∃ st t, while_loop (3 + 2) st0.pr_code.length st0 = .ok st ∧
        make_tree [7, 7, 7] 3 = .ok t ∧
        (List.range (3 + 2)).countP (not_consumed st) = 2 :=
  two_eligible [7, 7, 7] (by decide)

/-- C19: for every sequence of length `m`, no edge has the largest vertex `m + 1` in its
child slot (the decoding loop never selects it), and the father slot of the final edge
is `m + 1`. -/
theorem largest_vertex_last (s : List Nat) (hfit : s.length + 2 < U32_MOD) :
    ∃ t, make_tree s s.length = .ok t ∧
      (∀ e, e ∈ edges t → e.1 < s.length + 1) ∧
      ∃ c, (edges t)[s.length]? = some (c, s.length + 1) ∧
        (edges t).getLast? = some (c, s.length + 1) := by
  obtain ⟨cs, a, b, d, t, ht, _, _, _, hE⟩ := make_tree_edges s hfit
  have hb := last_father_eq d
  obtain ⟨hab, _, _, _, _⟩ := decoded_rest d
  refine ⟨t, ht, ?_, a, ?_, ?_⟩
  · rintro ⟨c, f⟩ he
    rw [hE, mem_zip_snoc cs s a b d.length_eq] at he
    rcases he with ⟨k, hc, _⟩ | ⟨rfl, _⟩
    · obtain ⟨hk, hx⟩ := List.getElem?_eq_some_iff.mp hc
      have := child_lt_last d k hk
      simp only
      omega
    · simp only
      omega
  · rw [hE, List.getElem?_zip_eq_some, ← hb]
    constructor
    · rw [List.getElem?_append_right (by rw [d.length_eq]), d.length_eq]; simp
    · rw [List.getElem?_append_right (le_refl _)]; simp
  · rw [hE, List.zip_append d.length_eq, ← hb]
    simp

/-- Witness of C19 on the sequence `[7, 7, 7]`. -/
theorem largest_vertex_last_witness :
    ∃ t, make_tree [7, 7, 7] 3 = .ok t ∧
      (∀ e, e ∈ edges t → e.1 < 3 + 1) ∧
      ∃ c, (edges t)[3]? = some (c, 3 + 1) ∧
        (edges t).getLast? = some (c, 3 + 1) :=
  largest_vertex_last [7, 7, 7] (by decide)

/-- C20: for every sequence of length `m`, valid or not, `make_tree` runs without an
out-of-bounds access: it returns a tree, although every read and write of `V`,
`V_enabled`, `V_consumed` and of the rows of `father_code` is checked against the block.
At the head of iteration `k` the three vectors have `m + 2` cells and both rows `m + 1`,
and `col_index = k`, which is below `m` while the queue is not empty and equals `m` when
the loop has ended and the final edge is written.  The indices are loop counters and
`col_index` only: the elements of the sequence are compared, never used as an index. -/
theorem indices_in_bounds (s : List Nat) (hfit : s.length + 2 < U32_MOD) :
    ∃ st0 t, init_locals s s.length = .ok st0 ∧ make_tree s s.length = .ok t ∧
      (∀ k, k ≤ s.length → ∃ st, run_steps (s.length + 2) k st0 = .ok st ∧
        st.V.length = s.length + 2 ∧ st.V_enabled.length = s.length + 2 ∧
        st.V_consumed.length = s.length + 2 ∧
        st.father_code_matrix.length = FATHER_CODE_ROWS ∧
        (∀ row ∈ st.father_code_matrix, row.length = s.length + 1) ∧
        st.col_index = k ∧ (st.pr_code ≠ [] → st.col_index < s.length)) ∧
      ∃ st p, while_loop (s.length + 2) st0.pr_code.length st0 = .ok st ∧
        st.col_index = s.length ∧ last_pair (s.length + 2) st = .ok p ∧
        t.father_code = p.1 := by
  obtain ⟨cs, a, b, d, h0, hsteps, hw, ht, hl⟩ := steps_state_eq s hfit
  refine ⟨_, _, h0, ht, ?_, _, _, hw, d.length_eq, hl, rfl⟩
  intro k hk
  have hcol : (cs.take k).length = k := by
    rw [List.length_take, d.length_eq]; omega
  refine ⟨_, hsteps k hk, by simp [locals_at, tab_length], by simp [locals_at, tab_length],
    by simp [locals_at, tab_length], rfl, ?_, hcol, ?_⟩
  · intro row hrow
    simp only [locals_at, List.mem_cons, List.mem_singleton, List.not_mem_nil,
      or_false] at hrow
    rcases hrow with rfl | rfl <;> exact tab_length _ _
  · intro hne
    show (cs.take k).length < s.length
    rw [hcol]
    by_contra hge
    have hk' : k = s.length := by omega
    apply hne
    show s.drop k = []
    rw [hk', List.drop_length]

/-- Witness of C20 on the sequence `[9, 0]`, whose first element is outside the
universe. -/
theorem indices_in_bounds_witness :
    ∃ st0 t, init_locals [9, 0] 2 = .ok st0 ∧ make_tree [9, 0] 2 = .ok t ∧
      (∀ k, k ≤ 2 → ∃ st, run_steps (2 + 2) k st0 = .ok st ∧
        st.V.length = 2 + 2 ∧ st.V_enabled.length = 2 + 2 ∧
        st.V_consumed.length = 2 + 2 ∧
        st.father_code_matrix.length = FATHER_CODE_ROWS ∧
        (∀ row ∈ st.father_code_matrix, row.length = 2 + 1) ∧
        st.col_index = k ∧ (st.pr_code ≠ [] → st.col_index < 2)) ∧
      ∃ st p, while_loop (2 + 2) st0.pr_code.length st0 = .ok st ∧
        st.col_index = 2 ∧ last_pair (2 + 2) st = .ok p ∧
        t.father_code = p.1 :=
  indices_in_bounds [9, 0] (by decide)

end PruferCode
